import Mathlib

/-!
Shallow embedding of the core of the couchbase query engine
(prepared-statement cache, planner sargability, plan JSON round-trip,
intersect-scan execution, conditional numeric functions), together with
theorems settling the specification claims.

Conventions: Go machine integers are modelled as `Nat`/`Int` with explicit
wrap-around where overflow matters; Go `nil`/failure is modelled by
`Option`/`Except`; Go maps keyed by strings are modelled as association
lists.  Definitions are translated from the repository source; the few
collaborator pieces whose source is not in the repository snapshot are
modelled from the specification and marked `Modelled from the spec:`.
-/

set_option maxRecDepth 4000

namespace QuerySpec

/-- A Go `float64` as far as the conditional numeric functions inspect it:
a finite number, one of the two infinities, or a NaN.  `math.IsInf(f, 0)`
and `math.IsNaN(f)` only look at this classification. -/
inductive Float64 where
  | fin (q : ℚ)
  | posInf
  | negInf
  | nan
deriving DecidableEq

/-- `math.IsInf(f, 0)` from the Go standard library. -/
def Float64.isInf : Float64 → Bool
  | .posInf => true
  | .negInf => true
  | _ => false

/-- `math.IsNaN(f)` from the Go standard library. -/
def Float64.isNaN : Float64 → Bool
  | .nan => true
  | _ => false

/-- The type tags of `value.Value` (src/value): the fragment of the tagged
union exercised by the verified claims. -/
inductive ValueType where
  | missing
  | null
  | boolean
  | number
  | stringT
  | objectT
deriving DecidableEq

/-- The fragment of the `value.Value` tagged union used by the claims:
MISSING, NULL, BOOLEAN, NUMBER, STRING and OBJECT values. -/
inductive Value where
  | missingV
  | nullV
  | boolV (b : Bool)
  | numberV (f : Float64)
  | stringV (s : String)
  | objV (fields : List (String × Value))

/-- `value.Value.Type()`. -/
def Value.typeOf : Value → ValueType
  | .missingV => .missing
  | .nullV => .null
  | .boolV _ => .boolean
  | .numberV _ => .number
  | .stringV _ => .stringT
  | .objV _ => .objectT

/-- `value.Value.Truth()` for the embedded fragment: a string is truthy iff
it is non-empty; MISSING and NULL are falsey; a boolean is itself; a number
is truthy iff non-zero; an object is always truthy. -/
def Value.truth : Value → Bool
  | .missingV => false
  | .nullV => false
  | .boolV b => b
  | .numberV (.fin q) => q ≠ 0
  | .numberV _ => true
  | .stringV s => s ≠ ""
  | .objV _ => true

/-- `value.Value.Field(name)` on an object value (first binding wins). -/
def Value.field : Value → String → Option Value
  | .objV fields, k => go fields k
  | _, _ => none
where
  go : List (String × Value) → String → Option Value
  | [], _ => none
  | (k', v) :: rest, k => if k' = k then some v else go rest k

/-! ### Conditional numeric functions (src/expression/func_cond_num.go)

The `Evaluate` methods loop over the already-evaluated operand values,
maintaining a `null` flag, (for IFINF) a `missing` flag, and the first
captured result `rv`; the loops below are the direct transliteration of
those Go loops. -/

/-- The loop body of `IfInf.Evaluate` (src/expression/func_cond_num.go
lines 56-86), recursing over the remaining operand values with the
accumulated `null` flag, `missing` flag and captured result `rv`. -/
def ifInfLoop : List Value → Bool → Bool → Option Float64 → Value
  | [], _, missing, rv =>
    match rv with
    | some f => .numberV f
    | none => if missing then .missingV else .nullV
  | a :: rest, null, missing, rv =>
    match a with
    | .missingV => ifInfLoop rest null (if !null then true else missing) rv
    | .numberV f =>
      if !null && rv.isNone && !f.isInf then
        ifInfLoop rest null missing (some f)
      else
        ifInfLoop rest null missing rv
    | _ => ifInfLoop rest true missing rv

/-- `IfInf.Evaluate` on the list of evaluated operand values. -/
def ifInfEval (args : List Value) : Value :=
  ifInfLoop args false false none

/-- The loop body of `IfNaN.Evaluate` (src/expression/func_cond_num.go
lines 143-166). -/
def ifNaNLoop : List Value → Bool → Option Float64 → Value
  | [], _, rv =>
    match rv with
    | some f => .numberV f
    | none => .nullV
  | a :: rest, null, rv =>
    match a with
    | .missingV => ifNaNLoop rest null rv
    | .numberV f =>
      if !null && rv.isNone && !f.isNaN then
        ifNaNLoop rest null (some f)
      else
        ifNaNLoop rest null rv
    | _ => ifNaNLoop rest true rv

/-- `IfNaN.Evaluate` on the list of evaluated operand values. -/
def ifNaNEval (args : List Value) : Value :=
  ifNaNLoop args false none

/-- The loop body of `IfNaNOrInf.Evaluate` (src/expression/func_cond_num.go
lines 223-246). -/
def ifNaNOrInfLoop : List Value → Bool → Option Float64 → Value
  | [], _, rv =>
    match rv with
    | some f => .numberV f
    | none => .nullV
  | a :: rest, null, rv =>
    match a with
    | .missingV => ifNaNOrInfLoop rest null rv
    | .numberV f =>
      if !null && rv.isNone && !f.isInf && !f.isNaN then
        ifNaNOrInfLoop rest null (some f)
      else
        ifNaNOrInfLoop rest null rv
    | _ => ifNaNOrInfLoop rest true rv

/-- `IfNaNOrInf.Evaluate` on the list of evaluated operand values. -/
def ifNaNOrInfEval (args : List Value) : Value :=
  ifNaNOrInfLoop args false none

/-- Reference semantics for IFNAN, stated recursively: the first non-NaN
NUMBER wins; a non-MISSING non-NUMBER argument forces NULL; MISSING
arguments are skipped; the function never returns MISSING. -/
def ifNaNSpec : List Value → Value
  | [] => .nullV
  | .missingV :: rest => ifNaNSpec rest
  | .numberV f :: rest => if !f.isNaN then .numberV f else ifNaNSpec rest
  | _ :: _ => .nullV

/-- Reference semantics for IFNANORINF, stated recursively. -/
def ifNaNOrInfSpec : List Value → Value
  | [] => .nullV
  | .missingV :: rest => ifNaNOrInfSpec rest
  | .numberV f :: rest =>
    if !f.isInf && !f.isNaN then .numberV f else ifNaNOrInfSpec rest
  | _ :: _ => .nullV

/-- Reference semantics for IFINF after a MISSING argument has been seen
(and no non-MISSING non-NUMBER argument yet): a further non-MISSING
non-NUMBER argument now yields MISSING, not NULL. -/
def ifInfSpecM : List Value → Value
  | [] => .missingV
  | .missingV :: rest => ifInfSpecM rest
  | .numberV f :: rest => if !f.isInf then .numberV f else ifInfSpecM rest
  | _ :: _ => .missingV

/-- Reference semantics for IFINF, stated recursively: the first non-Inf
NUMBER wins (NaN qualifies); a non-MISSING non-NUMBER argument before any
MISSING forces NULL; a MISSING argument seen first latches the MISSING
outcome for the case where no number ever qualifies. -/
def ifInfSpec : List Value → Value
  | [] => .nullV
  | .missingV :: rest => ifInfSpecM rest
  | .numberV f :: rest => if !f.isInf then .numberV f else ifInfSpec rest
  | _ :: _ => .nullV

/-! Equivalence lemmas between the transliterated loops and the reference
semantics. -/

theorem ifNaNLoop_some (args : List Value) (null : Bool) (f : Float64) :
    ifNaNLoop args null (some f) = .numberV f := by
  induction args generalizing null with
  | nil => rfl
  | cons a rest ih =>
    cases a <;> simp [ifNaNLoop, ih]

theorem ifNaNLoop_null (args : List Value) :
    ifNaNLoop args true none = .nullV := by
  induction args with
  | nil => rfl
  | cons a rest ih =>
    cases a <;> simp [ifNaNLoop, ih]

theorem ifNaNLoop_spec (args : List Value) :
    ifNaNLoop args false none = ifNaNSpec args := by
  induction args with
  | nil => rfl
  | cons a rest ih =>
    cases a with
    | missingV => simpa [ifNaNLoop, ifNaNSpec] using ih
    | numberV f =>
      by_cases h : f.isNaN <;>
        simp [ifNaNLoop, ifNaNSpec, h, ifNaNLoop_some, ih]
    | nullV => simp [ifNaNLoop, ifNaNSpec, ifNaNLoop_null]
    | boolV b => simp [ifNaNLoop, ifNaNSpec, ifNaNLoop_null]
    | stringV s => simp [ifNaNLoop, ifNaNSpec, ifNaNLoop_null]
    | objV fields => simp [ifNaNLoop, ifNaNSpec, ifNaNLoop_null]

theorem ifNaNOrInfLoop_some (args : List Value) (null : Bool) (f : Float64) :
    ifNaNOrInfLoop args null (some f) = .numberV f := by
  induction args generalizing null with
  | nil => rfl
  | cons a rest ih =>
    cases a <;> simp [ifNaNOrInfLoop, ih]

theorem ifNaNOrInfLoop_null (args : List Value) :
    ifNaNOrInfLoop args true none = .nullV := by
  induction args with
  | nil => rfl
  | cons a rest ih =>
    cases a <;> simp [ifNaNOrInfLoop, ih]

theorem ifNaNOrInfLoop_spec (args : List Value) :
    ifNaNOrInfLoop args false none = ifNaNOrInfSpec args := by
  induction args with
  | nil => rfl
  | cons a rest ih =>
    cases a with
    | missingV => simpa [ifNaNOrInfLoop, ifNaNOrInfSpec] using ih
    | numberV f =>
      by_cases h1 : f.isInf <;> by_cases h2 : f.isNaN <;>
        simp [ifNaNOrInfLoop, ifNaNOrInfSpec, h1, h2, ifNaNOrInfLoop_some, ih]
    | nullV => simp [ifNaNOrInfLoop, ifNaNOrInfSpec, ifNaNOrInfLoop_null]
    | boolV b => simp [ifNaNOrInfLoop, ifNaNOrInfSpec, ifNaNOrInfLoop_null]
    | stringV s => simp [ifNaNOrInfLoop, ifNaNOrInfSpec, ifNaNOrInfLoop_null]
    | objV fields => simp [ifNaNOrInfLoop, ifNaNOrInfSpec, ifNaNOrInfLoop_null]

theorem ifInfLoop_some (args : List Value) (null missing : Bool) (f : Float64) :
    ifInfLoop args null missing (some f) = .numberV f := by
  induction args generalizing null missing with
  | nil => rfl
  | cons a rest ih =>
    cases a <;> simp [ifInfLoop, ih]

theorem ifInfLoop_nullTrue (args : List Value) (missing : Bool) :
    ifInfLoop args true missing none =
      (if missing then Value.missingV else Value.nullV) := by
  induction args generalizing missing with
  | nil => rfl
  | cons a rest ih =>
    cases a <;> simp [ifInfLoop, ih]

theorem ifInfLoop_missing (args : List Value) :
    ifInfLoop args false true none = ifInfSpecM args := by
  induction args with
  | nil => rfl
  | cons a rest ih =>
    cases a with
    | missingV => simpa [ifInfLoop, ifInfSpecM] using ih
    | numberV f =>
      by_cases h : f.isInf <;>
        simp [ifInfLoop, ifInfSpecM, h, ifInfLoop_some, ih]
    | nullV => simp [ifInfLoop, ifInfSpecM, ifInfLoop_nullTrue]
    | boolV b => simp [ifInfLoop, ifInfSpecM, ifInfLoop_nullTrue]
    | stringV s => simp [ifInfLoop, ifInfSpecM, ifInfLoop_nullTrue]
    | objV fields => simp [ifInfLoop, ifInfSpecM, ifInfLoop_nullTrue]

theorem ifInfLoop_spec (args : List Value) :
    ifInfLoop args false false none = ifInfSpec args := by
  induction args with
  | nil => rfl
  | cons a rest ih =>
    cases a with
    | missingV => simpa [ifInfLoop, ifInfSpec] using ifInfLoop_missing rest
    | numberV f =>
      by_cases h : f.isInf <;>
        simp [ifInfLoop, ifInfSpec, h, ifInfLoop_some, ih]
    | nullV => simp [ifInfLoop, ifInfSpec, ifInfLoop_nullTrue]
    | boolV b => simp [ifInfLoop, ifInfSpec, ifInfLoop_nullTrue]
    | stringV s => simp [ifInfLoop, ifInfSpec, ifInfLoop_nullTrue]
    | objV fields => simp [ifInfLoop, ifInfSpec, ifInfLoop_nullTrue]

/-- C5 counterexample: the claim says the conditional numeric functions
return MISSING exactly when every argument evaluated to MISSING, but
`IfNaN.Evaluate` over two MISSING arguments returns NULL, not MISSING
(the Go loop skips MISSING operands and never produces MISSING). -/
theorem C5_counterexample :
    ifNaNEval [Value.missingV, Value.missingV] = Value.nullV ∧
    Value.nullV ≠ Value.missingV :=
  ⟨rfl, fun h => Value.noConfusion h⟩

/-- C5 (amended): each conditional numeric function returns the first
qualifying NUMBER (non-Inf for IFINF, non-NaN for IFNAN, non-Inf and
non-NaN for IFNANORINF) occurring before any non-MISSING non-NUMBER
argument; with no such number, IFNAN and IFNANORINF return NULL (never
MISSING), while IFINF returns MISSING iff some MISSING argument occurs
before any non-MISSING non-NUMBER argument, and NULL otherwise — as
captured by the recursive reference semantics. -/
theorem C5_conditional_amended (args : List Value) :
    ifInfEval args = ifInfSpec args ∧
    ifNaNEval args = ifNaNSpec args ∧
    ifNaNOrInfEval args = ifNaNOrInfSpec args :=
  ⟨ifInfLoop_spec args, ifNaNLoop_spec args, ifNaNOrInfLoop_spec args⟩

/-! ### `preparedCache.GetText` (src/prepareds/prepareds.go lines 138-155)

Go strings are modelled at character granularity; `strings.ToUpper` is
modelled character-wise (the inputs of interest are ASCII, where the two
agree), and `strings.Index` is the first index at which the needle occurs.
A Go slice expression `s[i:]` with `i > len(s)` is a runtime panic; the
embedding returns `none` there. -/

/-- First index at which `needle` occurs in `hay` (`strings.Index`). -/
def strIndex (hay needle : List Char) : Option Nat :=
  go hay 0
where
  go : List Char → Nat → Option Nat
  | [], i => if needle.isPrefixOf ([] : List Char) then some i else none
  | c :: rest, i =>
    if needle.isPrefixOf (c :: rest) then some i else go rest (i + 1)

/-- `preparedCache.GetText(text, offset)`: strips one occurrence of the
FORCE keyword (located case-insensitively in `text[:offset]`) by splicing
`prepare[:i] + prepare[i+6:] + text[offset:]`.  Out-of-range slicing —
`offset > len(text)`, or `i+6 > len(prepare)` when FORCE ends the prefix —
is a Go runtime panic, modelled as `none`. -/
def getText (text : String) (offset : Nat) : Option String :=
  let cs := text.toList
  if offset ≤ cs.length then
    let prepare := cs.take offset
    match strIndex (prepare.map Char.toUpper) "FORCE".toList with
    | none => some text
    | some i =>
      if i + 6 ≤ prepare.length then
        some (String.mk (prepare.take i ++ prepare.drop (i + 6) ++ cs.drop offset))
      else
        none
  else
    none

/-- C9: the claim says `GetText` is total and never accesses a string index
out of range, but on `text = "PREPARE FORCE"` with `offset = 13` the FORCE
keyword ends the prefix, so `prepare[i+6:]` slices one past the end of the
string and the Go code panics with an index-out-of-range runtime error. -/
theorem C9_getText_panics :
    getText "PREPARE FORCE" 13 = none ∧
    (∃ i, strIndex ("PREPARE FORCE".toList.map Char.toUpper)
        "FORCE".toList = some i) := by
  refine ⟨by decide, 8, by decide⟩

/-! ### Association-list helpers

Go maps keyed by strings are modelled as association lists with unique
keys; `aset` replaces in place (or appends), `aerase` deletes the key. -/

/-- Map lookup. -/
def alookup {α : Type} : List (String × α) → String → Option α
  | [], _ => none
  | (k', v) :: rest, k => if k' = k then some v else alookup rest k

/-- Map store: replace the first binding of the key, or append. -/
def aset {α : Type} : List (String × α) → String → α → List (String × α)
  | [], k, v => [(k, v)]
  | (k', v') :: rest, k, v =>
    if k' = k then (k, v) :: rest else (k', v') :: aset rest k v

/-- Map delete. -/
def aerase {α : Type} : List (String × α) → String → List (String × α)
  | [], _ => []
  | (k', v) :: rest, k =>
    if k' = k then aerase rest k else (k', v) :: aerase rest k

theorem alookup_mem {α : Type} {l : List (String × α)} {k : String} {v : α}
    (h : alookup l k = some v) : (k, v) ∈ l := by
  induction l with
  | nil => simp [alookup] at h
  | cons p rest ih =>
    by_cases hk : p.1 = k
    · obtain ⟨k', v'⟩ := p
      simp only [alookup] at h
      subst hk
      simp at h
      simp [h]
    · obtain ⟨k', v'⟩ := p
      simp only [alookup] at h
      rw [if_neg hk] at h
      exact List.mem_cons_of_mem _ (ih h)

theorem mem_aset {α : Type} {l : List (String × α)} {k : String} {v : α}
    {p : String × α} (h : p ∈ aset l k v) : p = (k, v) ∨ p ∈ l := by
  induction l with
  | nil => simpa [aset] using h
  | cons q rest ih =>
    by_cases hk : q.1 = k
    · obtain ⟨k', v'⟩ := q
      simp only [aset] at h
      rw [if_pos hk] at h
      rcases List.mem_cons.1 h with h1 | h1
      · exact Or.inl h1
      · exact Or.inr (List.mem_cons_of_mem _ h1)
    · obtain ⟨k', v'⟩ := q
      simp only [aset] at h
      rw [if_neg hk] at h
      rcases List.mem_cons.1 h with h1 | h1
      · exact Or.inr (by simp [h1])
      · rcases ih h1 with h2 | h2
        · exact Or.inl h2
        · exact Or.inr (List.mem_cons_of_mem _ h2)

theorem mem_aerase_ne {α : Type} {l : List (String × α)} {k : String}
    {p : String × α} (h : p ∈ aerase l k) : p ∈ l ∧ p.1 ≠ k := by
  induction l with
  | nil => simp [aerase] at h
  | cons q rest ih =>
    obtain ⟨k1, v1⟩ := q
    by_cases h1 : k1 = k
    · rw [aerase, if_pos h1] at h
      obtain ⟨h2, h3⟩ := ih h
      exact ⟨List.mem_cons_of_mem _ h2, h3⟩
    · rw [aerase, if_neg h1] at h
      rcases List.mem_cons.1 h with h2 | h2
      · refine ⟨by simp [h2], ?_⟩
        rw [h2]
        exact h1
      · obtain ⟨h3, h4⟩ := ih h2
        exact ⟨List.mem_cons_of_mem _ h3, h4⟩

theorem mem_aerase {α : Type} {l : List (String × α)} {k : String}
    {p : String × α} (h : p ∈ aerase l k) : p ∈ l :=
  (mem_aerase_ne h).1

/-! ### IntersectScan (src/unnamed/part_002, `execution` package)

`RunOnce` drives a loop over the merged output channel of the child scans;
each read yields either an item (an annotated value whose `meta.id`
attachment is the primary key and whose `Bit` identifies the producing
child), a child-termination signal carrying the child's bit, or a stop
(`cont == false`).  The loop below is the transliteration of that Go loop;
the channel is modelled by the list of events it delivers, in order. -/

/-- An annotated item as the intersect scan sees it: its primary key
(`meta.id`) and its producer tag (`Bit`). -/
structure IItem where
  key : String
  bit : Nat
deriving DecidableEq

/-- One read from the intersect scan's input channel
(`getItemChildren`): an item, a child termination (bit ≥ 0), or a
stop (`cont == false`). -/
inductive ISEvent where
  | item (it : IItem)
  | childTerm (bit : Nat)
  | stop
deriving DecidableEq

/-- The mutable state of `IntersectScan`: the `values` and `bits` scratch
maps, the `sent` counter, and the sequence of items sent downstream. -/
structure ISState where
  values : List (String × IItem)
  bits : List (String × Nat)
  sent : Int
  out : List IItem
deriving DecidableEq

/-- `IntersectScan.processKey`: OR the producer's bit into `bits[key]`,
caching the item on first sight; when the bitmask covers `fullBits`, erase
the scratch state, re-tag the item with the scan's own bit and send it.
Returns the loop-continuation flag (`sendItem(...) && (limit <= 0 ||
this.sent < limit)`, with the downstream channel modelled as always
accepting) together with the new state. -/
def processKey (scanBit : Nat) (it : IItem) (st : ISState) (fullBits : Nat)
    (limit : Int) : Bool × ISState :=
  let bits0 := (alookup st.bits it.key).getD 0
  let values1 := if bits0 = 0 then aset st.values it.key it else st.values
  let bits1 := bits0 ||| (1 <<< it.bit)
  if (bits1 &&& fullBits) ^^^ fullBits = 0 then
    let sent1 := if 0 < limit then st.sent + 1 else st.sent
    (decide (limit ≤ 0) || decide (sent1 < limit),
      { values := aerase values1 it.key
        bits := aerase st.bits it.key
        sent := sent1
        out := st.out ++ [{ it with bit := scanBit }] })
  else
    (true, { st with values := values1, bits := aset st.bits it.key bits1 })

/-- The result of the `RunOnce` main loop: final state, the accumulated
`childBits`, and the `stopped` and `ok` flags at loop exit. -/
structure LoopRes where
  st : ISState
  childBits : Nat
  stopped : Bool
  ok : Bool
deriving DecidableEq

/-- The main loop of `IntersectScan.RunOnce` (src/unnamed/part_002 lines
114-151): child terminations decrement `n` and — only for the first one
(`n == nscans`, MB-22321) — notify siblings and record the child's bit in
`childBits`; items go through `processKey`; a stop exits with
`stopped = true`; channel exhaustion (a nil item) breaks the loop. -/
def runLoop (scanBit nscans fullBits : Nat) (limit : Int) :
    List ISEvent → ISState → Nat → Nat → LoopRes
  | [], st, _, childBits => ⟨st, childBits, false, true⟩
  | e :: rest, st, n, childBits =>
    match e with
    | .stop => ⟨st, childBits, true, true⟩
    | .childTerm b =>
      let childBits1 := if n = nscans then childBits ||| (1 <<< b) else childBits
      runLoop scanBit nscans fullBits limit rest st (n - 1) childBits1
    | .item it =>
      let r := processKey scanBit it st fullBits limit
      if r.1 then runLoop scanBit nscans fullBits limit rest r.2 n childBits
      else ⟨r.2, childBits, false, false⟩

/-- `IntersectScan.sendItems`: sweep the remaining `bits` entries, emitting
(re-tagged with the scan's bit) every cached value whose bitmask covers
`childBits`. -/
def sendItems (scanBit : Nat) (childBits : Nat) (st : ISState) : ISState :=
  go st.bits st
where
  go : List (String × Nat) → ISState → ISState
  | [], st1 => st1
  | (key, bits) :: rest, st1 =>
    if (bits &&& childBits) ^^^ childBits = 0 then
      match alookup st1.values key with
      | some v => go rest { st1 with out := st1.out ++ [{ v with bit := scanBit }] }
      | none => go rest st1
    else go rest st1

/-- `fullBits`: the loop in `RunOnce` ORs `1 << i` for each child index. -/
def fullBitsOf (nscans : Nat) : Nat :=
  (List.range nscans).foldl (fun acc i => acc ||| (1 <<< i)) 0

/-- `IntersectScan.RunOnce` on a delivered event sequence: run the main
loop and, when the loop ended cleanly with a recorded first-terminated
child and the limit not yet reached, run the final `sendItems` sweep.
Returns the sequence of items sent downstream.  (With no scans the
`context.assert` guard returns immediately.) -/
def runIntersect (nscans : Nat) (limit : Int) (scanBit : Nat)
    (events : List ISEvent) : List IItem :=
  if nscans = 0 then []
  else
    let fullBits := fullBitsOf nscans
    let r := runLoop scanBit nscans fullBits limit events ⟨[], [], 0, []⟩ nscans 0
    if ¬r.stopped ∧ r.ok ∧ r.childBits ≠ 0 ∧ (limit ≤ 0 ∨ r.st.sent < limit) then
      (sendItems scanBit r.childBits r.st).out
    else r.st.out

/-- Whether some delivered item carries key `k` and producer bit `b`
(i.e. child `b` produced key `k` among the delivered events). -/
def deliveredb (events : List ISEvent) (k : String) (b : Nat) : Bool :=
  events.any fun e =>
    match e with
    | .item it => it.key = k && it.bit = b
    | _ => false

/-- The bit of the first child-termination signal among the events. -/
def firstTermBit : List ISEvent → Option Nat
  | [] => none
  | .childTerm b :: _ => some b
  | _ :: rest => firstTermBit rest

theorem alookup_aset_self {α : Type} (l : List (String × α)) (k : String) (v : α) :
    alookup (aset l k v) k = some v := by
  induction l with
  | nil => simp [aset, alookup]
  | cons p rest ih =>
    obtain ⟨k', v'⟩ := p
    by_cases hk : k' = k
    · simp [aset, hk, alookup]
    · simp [aset, hk, alookup, ih]

theorem alookup_aset_ne {α : Type} (l : List (String × α)) (k k' : String) (v : α)
    (h : k' ≠ k) : alookup (aset l k v) k' = alookup l k' := by
  induction l with
  | nil => simp [aset, alookup, Ne.symm h]
  | cons p rest ih =>
    obtain ⟨k1, v1⟩ := p
    by_cases hk : k1 = k
    · subst hk
      simp [aset, alookup, Ne.symm h]
    · simp only [aset, if_neg hk, alookup]
      by_cases hk1 : k1 = k'
      · simp [hk1]
      · simp [hk1, ih]

theorem alookup_aerase {α : Type} (l : List (String × α)) (k k' : String) :
    alookup (aerase l k) k' = if k' = k then none else alookup l k' := by
  induction l with
  | nil => simp [aerase, alookup]
  | cons p rest ih =>
    obtain ⟨k1, v1⟩ := p
    by_cases h1 : k1 = k
    · rw [aerase, if_pos h1, ih]
      by_cases h2 : k' = k
      · simp [h2]
      · have : k1 ≠ k' := by
          rw [h1]
          exact Ne.symm h2
        simp [h2, alookup, this]
    · rw [aerase, if_neg h1]
      by_cases h2 : k1 = k'
      · subst h2
        simp [alookup, h1]
      · simp [alookup, h2, ih]

theorem foldl_or_testBit (l : List Nat) (acc i : Nat) :
    Nat.testBit (l.foldl (fun a j => a ||| (1 <<< j)) acc) i =
      (Nat.testBit acc i || l.any (fun j => j = i)) := by
  induction l generalizing acc with
  | nil => simp
  | cons j rest ih =>
    have hbit : Nat.testBit (1 <<< j) i = decide (j = i) := by
      rw [Nat.one_shiftLeft]
      by_cases h : j = i
      · subst h
        simp [Nat.testBit_two_pow_self]
      · simp [h, Nat.testBit_two_pow_of_ne h]
    simp only [List.foldl_cons, List.any_cons, ih, Nat.testBit_lor, hbit]
    simp [Bool.or_assoc]

theorem fullBitsOf_testBit (n i : Nat) :
    Nat.testBit (fullBitsOf n) i = decide (i < n) := by
  rw [fullBitsOf, foldl_or_testBit, Nat.zero_testBit, Bool.false_or]
  by_cases h : i < n
  · have h2 : (List.range n).any (fun j => j = i) = true :=
      List.any_eq_true.2 ⟨i, List.mem_range.2 h, by simp⟩
    simp [h2, h]
  · have h2 : (List.range n).any (fun j => j = i) = false := by
      refine List.any_eq_false.2 ?_
      intro j hj
      simp only [decide_eq_true_eq]
      intro hji
      exact h (hji ▸ List.mem_range.1 hj)
    simp [h2, h]

theorem processKey_emit {scanBit : Nat} {it : IItem} {st : ISState}
    {fullBits : Nat} {limit : Int}
    (h : ((((alookup st.bits it.key).getD 0) ||| (1 <<< it.bit)) &&& fullBits)
        ^^^ fullBits = 0) :
    processKey scanBit it st fullBits limit =
      (decide (limit ≤ 0) ||
          decide ((if 0 < limit then st.sent + 1 else st.sent) < limit),
        { values := aerase (if (alookup st.bits it.key).getD 0 = 0
              then aset st.values it.key it else st.values) it.key
          bits := aerase st.bits it.key
          sent := if 0 < limit then st.sent + 1 else st.sent
          out := st.out ++ [{ it with bit := scanBit }] }) := by
  simp only [processKey]
  rw [if_pos h]

theorem processKey_noemit {scanBit : Nat} {it : IItem} {st : ISState}
    {fullBits : Nat} {limit : Int}
    (h : ¬ (((((alookup st.bits it.key).getD 0) ||| (1 <<< it.bit)) &&& fullBits)
        ^^^ fullBits = 0)) :
    processKey scanBit it st fullBits limit =
      (true,
        { st with
            values := if (alookup st.bits it.key).getD 0 = 0
              then aset st.values it.key it else st.values
            bits := aset st.bits it.key
              (((alookup st.bits it.key).getD 0) ||| (1 <<< it.bit)) }) := by
  simp only [processKey]
  rw [if_neg h]

theorem processKey_flag {scanBit : Nat} {it : IItem} {st : ISState}
    {fullBits : Nat} {limit : Int} (hl : limit ≤ 0) :
    (processKey scanBit it st fullBits limit).1 = true := by
  by_cases h : ((((alookup st.bits it.key).getD 0) ||| (1 <<< it.bit)) &&& fullBits)
      ^^^ fullBits = 0
  · rw [processKey_emit h]
    simp [hl]
  · rw [processKey_noemit h]

theorem processKey_inv {P : String → Nat → Prop} {scanBit nscans : Nat}
    {it : IItem} {st : ISState} {limit : Int}
    (hbits : ∀ p ∈ st.bits, ∀ i, Nat.testBit p.2 i = true → P p.1 i)
    (hvals : ∀ p ∈ st.values, p.2.key = p.1)
    (hout : ∀ x ∈ st.out, x.bit = scanBit ∧ ∀ i < nscans, P x.key i)
    (hit : P it.key it.bit) :
    (∀ p ∈ (processKey scanBit it st (fullBitsOf nscans) limit).2.bits,
        ∀ i, Nat.testBit p.2 i = true → P p.1 i) ∧
    (∀ p ∈ (processKey scanBit it st (fullBitsOf nscans) limit).2.values,
        p.2.key = p.1) ∧
    (∀ x ∈ (processKey scanBit it st (fullBitsOf nscans) limit).2.out,
        x.bit = scanBit ∧ ∀ i < nscans, P x.key i) := by
  have hbits0 : ∀ i, Nat.testBit ((alookup st.bits it.key).getD 0) i = true →
      P it.key i := by
    cases hl : alookup st.bits it.key with
    | none =>
      intro i hi
      simp [Nat.zero_testBit] at hi
    | some b =>
      intro i hi
      exact hbits (it.key, b) (alookup_mem hl) i (by simpa using hi)
  have hbits1 : ∀ i,
      Nat.testBit (((alookup st.bits it.key).getD 0) ||| (1 <<< it.bit)) i = true →
      P it.key i := by
    intro i hi
    rw [Nat.testBit_lor] at hi
    rcases Bool.or_eq_true_iff.1 hi with h1 | h1
    · exact hbits0 i h1
    · rw [Nat.one_shiftLeft] at h1
      have : it.bit = i := by
        by_contra hne
        rw [Nat.testBit_two_pow_of_ne hne] at h1
        exact Bool.false_ne_true h1
      exact this ▸ hit
  have hvals1 : ∀ p ∈ (if (alookup st.bits it.key).getD 0 = 0
      then aset st.values it.key it else st.values), p.2.key = p.1 := by
    intro p hp
    by_cases h0 : (alookup st.bits it.key).getD 0 = 0
    · rw [if_pos h0] at hp
      rcases mem_aset hp with h1 | h1
      · rw [h1]
      · exact hvals p h1
    · rw [if_neg h0] at hp
      exact hvals p hp
  by_cases h : ((((alookup st.bits it.key).getD 0) ||| (1 <<< it.bit)) &&&
      fullBitsOf nscans) ^^^ fullBitsOf nscans = 0
  · rw [processKey_emit h]
    have hfull : ∀ i < nscans,
        Nat.testBit (((alookup st.bits it.key).getD 0) ||| (1 <<< it.bit)) i
          = true := by
      intro i hi
      have heq := Nat.xor_eq_zero.1 h
      have := congrArg (fun m => Nat.testBit m i) heq
      simp only [Nat.testBit_land, fullBitsOf_testBit] at this
      simpa [hi] using this
    refine ⟨?_, ?_, ?_⟩
    · intro p hp i hpi
      exact hbits p (mem_aerase hp) i hpi
    · intro p hp
      exact hvals1 p (mem_aerase hp)
    · intro x hx
      rcases List.mem_append.1 hx with h1 | h1
      · exact hout x h1
      · rcases List.mem_singleton.1 h1 with rfl
        exact ⟨rfl, fun i hi => hbits1 i (hfull i hi)⟩
  · rw [processKey_noemit h]
    refine ⟨?_, hvals1, hout⟩
    intro p hp i hpi
    rcases mem_aset hp with h1 | h1
    · rw [h1] at hpi ⊢
      exact hbits1 i hpi
    · exact hbits p h1 i hpi

theorem runLoop_inv {P : String → Nat → Prop} (scanBit nscans : Nat)
    (limit : Int) (events : List ISEvent) :
    ∀ (st : ISState) (n childBits : Nat),
    (∀ it : IItem, ISEvent.item it ∈ events → P it.key it.bit) →
    (∀ p ∈ st.bits, ∀ i, Nat.testBit p.2 i = true → P p.1 i) →
    (∀ p ∈ st.values, p.2.key = p.1) →
    (∀ x ∈ st.out, x.bit = scanBit ∧ ∀ i < nscans, P x.key i) →
    (∀ p ∈ (runLoop scanBit nscans (fullBitsOf nscans) limit events st n
        childBits).st.bits, ∀ i, Nat.testBit p.2 i = true → P p.1 i) ∧
    (∀ p ∈ (runLoop scanBit nscans (fullBitsOf nscans) limit events st n
        childBits).st.values, p.2.key = p.1) ∧
    (∀ x ∈ (runLoop scanBit nscans (fullBitsOf nscans) limit events st n
        childBits).st.out, x.bit = scanBit ∧ ∀ i < nscans, P x.key i) := by
  induction events with
  | nil =>
    intro st n childBits _ hb hv ho
    exact ⟨hb, hv, ho⟩
  | cons e rest ih =>
    intro st n childBits hP hb hv ho
    cases e with
    | stop => exact ⟨hb, hv, ho⟩
    | childTerm b =>
      simp only [runLoop]
      exact ih _ _ _ (fun it' hit' => hP it' (List.mem_cons_of_mem _ hit')) hb hv ho
    | item it =>
      have hit : P it.key it.bit := hP it (List.mem_cons_self _ _)
      obtain ⟨hb', hv', ho'⟩ := processKey_inv hb hv ho hit
      simp only [runLoop]
      split
      · exact ih _ _ _ (fun it' hit' => hP it' (List.mem_cons_of_mem _ hit')) hb' hv' ho'
      · exact ⟨hb', hv', ho'⟩

theorem sendItems_go_values (scanBit childBits : Nat)
    (l : List (String × Nat)) (st1 : ISState) :
    (sendItems.go scanBit childBits l st1).values = st1.values := by
  induction l generalizing st1 with
  | nil => rfl
  | cons p rest ih =>
    obtain ⟨key, bits⟩ := p
    simp only [sendItems.go]
    split
    · cases alookup st1.values key <;> simp [ih]
    · exact ih st1

theorem sendItems_go_out_mono (scanBit childBits : Nat)
    (l : List (String × Nat)) (st1 : ISState) {x : IItem} (hx : x ∈ st1.out) :
    x ∈ (sendItems.go scanBit childBits l st1).out := by
  induction l generalizing st1 with
  | nil => exact hx
  | cons p rest ih =>
    obtain ⟨key, bits⟩ := p
    simp only [sendItems.go]
    split
    · cases alookup st1.values key with
      | none => exact ih _ hx
      | some v =>
        exact ih _ (by simp [hx])
    · exact ih _ hx

theorem sendItems_go_sound {P : String → Nat → Prop} (scanBit childBits : Nat)
    (l : List (String × Nat)) (st1 : ISState) (b0 : Nat)
    (hb0 : Nat.testBit childBits b0 = true)
    (hvals : ∀ p ∈ st1.values, p.2.key = p.1)
    (hl : ∀ p ∈ l, ∀ i, Nat.testBit p.2 i = true → P p.1 i) :
    ∀ x ∈ (sendItems.go scanBit childBits l st1).out,
      x ∈ st1.out ∨ (x.bit = scanBit ∧ P x.key b0) := by
  induction l generalizing st1 with
  | nil => intro x hx; exact Or.inl hx
  | cons p rest ih =>
    obtain ⟨key, bits⟩ := p
    intro x hx
    simp only [sendItems.go] at hx
    by_cases hc : (bits &&& childBits) ^^^ childBits = 0
    · rw [if_pos hc] at hx
      have hP : P key b0 := by
        have heq := Nat.xor_eq_zero.1 hc
        have := congrArg (fun m => Nat.testBit m b0) heq
        simp only [Nat.testBit_land, hb0, Bool.and_true] at this
        exact hl (key, bits) (List.mem_cons_self _ _) b0 (by simpa using this)
      cases hv : alookup st1.values key with
      | none =>
        rw [hv] at hx
        exact ih st1 hvals
          (fun p hp => hl p (List.mem_cons_of_mem _ hp)) x hx
      | some v =>
        rw [hv] at hx
        have hkey : v.key = key := hvals (key, v) (alookup_mem hv)
        have hx' : x ∈ (sendItems.go scanBit childBits rest
            { st1 with out := st1.out ++ [{ v with bit := scanBit }] }).out := hx
        rcases ih { st1 with out := st1.out ++ [{ v with bit := scanBit }] }
            (fun p hp => hvals p hp)
            (fun p hp => hl p (List.mem_cons_of_mem _ hp)) x hx' with h1 | h1
        · have h1' : x ∈ st1.out ++ [{ v with bit := scanBit }] := h1
          rcases List.mem_append.1 h1' with h2 | h2
          · exact Or.inl h2
          · rcases List.mem_singleton.1 h2 with rfl
            exact Or.inr ⟨rfl, hkey ▸ hP⟩
        · exact Or.inr h1
    · rw [if_neg hc] at hx
      exact ih _ hvals (fun p hp => hl p (List.mem_cons_of_mem _ hp)) x hx

theorem sendItems_go_complete (scanBit childBits : Nat)
    (l : List (String × Nat)) (st1 : ISState) (k : String) (bs : Nat)
    (hvals : ∀ p ∈ st1.values, p.2.key = p.1)
    (hmem : (k, bs) ∈ l) (hc : (bs &&& childBits) ^^^ childBits = 0)
    (hvv : ∃ v, alookup st1.values k = some v) :
    ∃ x ∈ (sendItems.go scanBit childBits l st1).out, x.key = k := by
  induction l generalizing st1 with
  | nil => simp at hmem
  | cons p rest ih =>
    obtain ⟨k1, b1⟩ := p
    rcases List.mem_cons.1 hmem with h1 | h1
    · obtain ⟨hk1, hb1⟩ : k1 = k ∧ b1 = bs := by
        constructor <;> injection h1 <;> simp_all
      subst hk1
      subst hb1
      obtain ⟨v, hv⟩ := hvv
      simp only [sendItems.go, if_pos hc, hv]
      have hkey : v.key = k1 := hvals (k1, v) (alookup_mem hv)
      refine ⟨{ v with bit := scanBit }, ?_, hkey⟩
      exact sendItems_go_out_mono _ _ _ _ (by simp)
    · simp only [sendItems.go]
      split
      · cases hv : alookup st1.values k1 with
        | none => exact ih _ hvals h1 hvv
        | some v => exact ih _ (fun p hp => hvals p hp) h1 hvv
      · exact ih _ hvals h1 hvv

theorem runLoop_childBits_lt (scanBit nscans fullBits : Nat) (limit : Int) :
    ∀ (events : List ISEvent) (st : ISState) (n childBits : Nat), n < nscans →
    (runLoop scanBit nscans fullBits limit events st n childBits).childBits
      = childBits := by
  intro events
  induction events with
  | nil => intro st n childBits _; rfl
  | cons e rest ih =>
    intro st n childBits hn
    cases e with
    | stop => rfl
    | childTerm b =>
      simp only [runLoop, if_neg (Nat.ne_of_lt hn)]
      exact ih st (n - 1) childBits (lt_of_le_of_lt (Nat.sub_le n 1) hn)
    | item it =>
      simp only [runLoop]
      split
      · exact ih _ n childBits hn
      · rfl

theorem runLoop_childBits (scanBit nscans fullBits : Nat) (limit : Int)
    (hn : 0 < nscans) :
    ∀ (events : List ISEvent) (st : ISState),
    (runLoop scanBit nscans fullBits limit events st nscans 0).childBits = 0 ∨
    ∃ b, firstTermBit events = some b ∧
      (runLoop scanBit nscans fullBits limit events st nscans 0).childBits
        = 1 <<< b := by
  intro events
  induction events with
  | nil => intro st; exact Or.inl rfl
  | cons e rest ih =>
    intro st
    cases e with
    | stop => exact Or.inl rfl
    | childTerm b =>
      simp only [runLoop, if_pos rfl]
      refine Or.inr ⟨b, rfl, ?_⟩
      rw [runLoop_childBits_lt scanBit nscans fullBits limit rest st
        (nscans - 1) _ (Nat.sub_lt hn Nat.one_pos)]
      simp
    | item it =>
      simp only [runLoop]
      split
      · rcases ih _ with h | ⟨b, hb1, hb2⟩
        · exact Or.inl h
        · exact Or.inr ⟨b, by simpa [firstTermBit] using hb1, hb2⟩
      · exact Or.inl rfl

theorem runLoop_childBits_first (scanBit nscans fullBits : Nat) (limit : Int)
    (hn : 0 < nscans) (hl : limit ≤ 0) :
    ∀ (events : List ISEvent) (st : ISState) (b : Nat),
    ISEvent.stop ∉ events →
    firstTermBit events = some b →
    (runLoop scanBit nscans fullBits limit events st nscans 0).childBits
      = 1 <<< b := by
  intro events
  induction events with
  | nil => intro st b _ hb; simp [firstTermBit] at hb
  | cons e rest ih =>
    intro st b hstop hb
    cases e with
    | stop => exact absurd (List.mem_cons_self _ _) hstop
    | childTerm b' =>
      have hb' : b' = b := by simpa [firstTermBit] using hb
      subst hb'
      simp only [runLoop, if_pos rfl]
      rw [runLoop_childBits_lt scanBit nscans fullBits limit rest st
        (nscans - 1) _ (Nat.sub_lt hn Nat.one_pos)]
      simp
    | item it =>
      have hb2 : firstTermBit rest = some b := by simpa [firstTermBit] using hb
      simp only [runLoop]
      rw [if_pos (processKey_flag hl)]
      exact ih _ b (fun hmem => hstop (List.mem_cons_of_mem _ hmem)) hb2

theorem deliveredb_cons_item (it : IItem) (rest : List ISEvent) (k : String)
    (b : Nat) :
    deliveredb (ISEvent.item it :: rest) k b =
      ((it.key = k && it.bit = b) || deliveredb rest k b) := rfl

theorem deliveredb_cons_childTerm (b' : Nat) (rest : List ISEvent) (k : String)
    (b : Nat) :
    deliveredb (ISEvent.childTerm b' :: rest) k b = deliveredb rest k b := by
  simp [deliveredb]

theorem runLoop_limit (scanBit nscans fullBits : Nat) (limit : Int)
    (hl : 0 < limit) :
    ∀ (events : List ISEvent) (st : ISState) (n childBits : Nat),
    st.sent < limit → st.sent = (st.out.length : Int) →
    (((runLoop scanBit nscans fullBits limit events st n
        childBits).st.out.length : Int)) ≤ limit := by
  intro events
  induction events with
  | nil =>
    intro st n cb hs he
    rw [runLoop]
    rw [he] at hs
    exact le_of_lt hs
  | cons e rest ih =>
    intro st n cb hs he
    cases e with
    | stop =>
      rw [runLoop]
      rw [he] at hs
      exact le_of_lt hs
    | childTerm b =>
      simp only [runLoop]
      exact ih _ _ _ hs he
    | item it =>
      simp only [runLoop]
      by_cases hc : ((((alookup st.bits it.key).getD 0) ||| (1 <<< it.bit))
          &&& fullBits) ^^^ fullBits = 0
      · rw [processKey_emit hc]
        have hnl : ¬ (limit ≤ 0) := not_le.2 hl
        simp only [if_pos hl, decide_eq_true_eq]
        by_cases h2 : st.sent + 1 < limit
        · have hflag : (decide (limit ≤ 0) || decide (st.sent + 1 < limit))
              = true := by simp [h2]
          rw [if_pos hflag]
          refine ih _ _ _ h2 ?_
          simp only [List.length_append, List.length_cons, List.length_nil]
          push_cast
          rw [← he]
        · have hflag : (decide (limit ≤ 0) || decide (st.sent + 1 < limit))
              = false := by simp [h2, hnl]
          rw [hflag]
          simp only [Bool.false_eq_true, if_false, List.length_append,
            List.length_cons, List.length_nil]
          push_cast
          rw [← he]
          have : st.sent + 1 ≤ limit := Int.add_one_le_iff.2 hs
          simpa using this
      · rw [processKey_noemit hc]
        simp only [if_pos rfl]
        exact ih _ _ _ hs he

theorem runLoop_complete (scanBit nscans fullBits : Nat) (limit : Int)
    (hl : limit ≤ 0) :
    ∀ (events : List ISEvent) (st : ISState) (n childBits : Nat)
      (D : String → Nat → Prop),
    ISEvent.stop ∉ events →
    (∀ k b, D k b → (∃ x ∈ st.out, x.key = k) ∨
        Nat.testBit ((alookup st.bits k).getD 0) b = true) →
    (∀ p ∈ st.bits, ∃ v, alookup st.values p.1 = some v) →
    (runLoop scanBit nscans fullBits limit events st n childBits).ok = true ∧
    (runLoop scanBit nscans fullBits limit events st n childBits).stopped
      = false ∧
    (∀ k b, (D k b ∨ deliveredb events k b = true) →
        (∃ x ∈ (runLoop scanBit nscans fullBits limit events st n
            childBits).st.out, x.key = k) ∨
        Nat.testBit ((alookup (runLoop scanBit nscans fullBits limit events st n
            childBits).st.bits k).getD 0) b = true) ∧
    (∀ p ∈ (runLoop scanBit nscans fullBits limit events st n childBits).st.bits,
        ∃ v, alookup (runLoop scanBit nscans fullBits limit events st n
          childBits).st.values p.1 = some v) := by
  intro events
  induction events with
  | nil =>
    intro st n cb D _ hinv hvp
    refine ⟨rfl, rfl, ?_, hvp⟩
    intro k b hD
    rcases hD with hD | hD
    · exact hinv k b hD
    · simp [deliveredb] at hD
  | cons e rest ih =>
    intro st n cb D hstop hinv hvp
    have hstop' : ISEvent.stop ∉ rest :=
      fun hmem => hstop (List.mem_cons_of_mem _ hmem)
    cases e with
    | stop => exact absurd (List.mem_cons_self _ _) hstop
    | childTerm b' =>
      simp only [runLoop]
      obtain ⟨h1, h2, h3, h4⟩ := ih st (n - 1)
        (if n = nscans then cb ||| 1 <<< b' else cb) D hstop' hinv hvp
      refine ⟨h1, h2, ?_, h4⟩
      intro k b hD
      rw [deliveredb_cons_childTerm] at hD
      exact h3 k b hD
    | item it =>
      simp only [runLoop]
      rw [if_pos (processKey_flag hl)]
      have hinv' : ∀ k b,
          (D k b ∨ (k = it.key ∧ b = it.bit)) →
          (∃ x ∈ (processKey scanBit it st fullBits limit).2.out, x.key = k) ∨
          Nat.testBit ((alookup (processKey scanBit it st fullBits limit).2.bits
            k).getD 0) b = true := by
        intro k b hD
        by_cases hc : ((((alookup st.bits it.key).getD 0) ||| (1 <<< it.bit))
            &&& fullBits) ^^^ fullBits = 0
        · rw [processKey_emit hc]
          by_cases hkk : k = it.key
          · refine Or.inl ⟨{ it with bit := scanBit }, ?_, hkk.symm⟩
            simp
          · rcases hD with hD | hD
            · rcases hinv k b hD with h1 | h1
              · rcases h1 with ⟨x, hx1, hx2⟩
                exact Or.inl ⟨x, by simp [hx1], hx2⟩
              · refine Or.inr ?_
                rw [alookup_aerase, if_neg hkk]
                exact h1
            · exact absurd hD.1 hkk
        · rw [processKey_noemit hc]
          by_cases hkk : k = it.key
          · subst hkk
            rcases hD with hD | hD
            · rcases hinv it.key b hD with h1 | h1
              · exact Or.inl h1
              · refine Or.inr ?_
                rw [alookup_aset_self]
                simp only [Option.getD_some, Nat.testBit_lor]
                simp [h1]
            · refine Or.inr ?_
              rw [alookup_aset_self]
              simp only [Option.getD_some, Nat.testBit_lor]
              rw [hD.2, Nat.one_shiftLeft, Nat.testBit_two_pow_self]
              simp
          · rcases hD with hD | hD
            · rcases hinv k b hD with h1 | h1
              · exact Or.inl h1
              · refine Or.inr ?_
                rw [alookup_aset_ne _ _ _ _ hkk]
                exact h1
            · exact absurd hD.1 hkk
      have hvp' : ∀ p ∈ (processKey scanBit it st fullBits limit).2.bits,
          ∃ v, alookup (processKey scanBit it st fullBits limit).2.values p.1
            = some v := by
        intro p hp
        by_cases hc : ((((alookup st.bits it.key).getD 0) ||| (1 <<< it.bit))
            &&& fullBits) ^^^ fullBits = 0
        · rw [processKey_emit hc] at hp ⊢
          obtain ⟨hp1, hp2⟩ := mem_aerase_ne hp
          simp only
          rw [alookup_aerase, if_neg hp2]
          by_cases h0 : (alookup st.bits it.key).getD 0 = 0
          · rw [if_pos h0, alookup_aset_ne _ _ _ _ hp2]
            exact hvp p hp1
          · rw [if_neg h0]
            exact hvp p hp1
        · rw [processKey_noemit hc] at hp ⊢
          simp only at hp ⊢
          rcases mem_aset hp with h1 | h1
          · rw [h1]
            simp only
            by_cases h0 : (alookup st.bits it.key).getD 0 = 0
            · rw [if_pos h0, alookup_aset_self]
              exact ⟨it, rfl⟩
            · rw [if_neg h0]
              cases hlk : alookup st.bits it.key with
              | none =>
                rw [hlk] at h0
                simp at h0
              | some bs =>
                exact hvp (it.key, bs) (alookup_mem hlk)
          · by_cases hkk : p.1 = it.key
            · by_cases h0 : (alookup st.bits it.key).getD 0 = 0
              · rw [if_pos h0, hkk, alookup_aset_self]
                exact ⟨it, rfl⟩
              · rw [if_neg h0]
                exact hvp p h1
            · by_cases h0 : (alookup st.bits it.key).getD 0 = 0
              · rw [if_pos h0, alookup_aset_ne _ _ _ _ hkk]
                exact hvp p h1
              · rw [if_neg h0]
                exact hvp p h1
      obtain ⟨h1, h2, h3, h4⟩ := ih (processKey scanBit it st fullBits limit).2
        n cb (fun k b => D k b ∨ (k = it.key ∧ b = it.bit)) hstop' hinv' hvp'
      refine ⟨h1, h2, ?_, h4⟩
      intro k b hD
      rw [deliveredb_cons_item] at hD
      apply h3
      rcases hD with hD | hD
      · exact Or.inl (Or.inl hD)
      · rcases Bool.or_eq_true_iff.1 hD with hD2 | hD2
        · obtain ⟨hk, hb⟩ := Bool.and_eq_true_iff.1 hD2
          exact Or.inl (Or.inr ⟨(of_decide_eq_true hk).symm,
            (of_decide_eq_true hb).symm⟩)
        · exact Or.inr hD2

theorem deliveredb_of_mem {events : List ISEvent} {it : IItem}
    (h : ISEvent.item it ∈ events) : deliveredb events it.key it.bit = true := by
  simp only [deliveredb, List.any_eq_true]
  exact ⟨ISEvent.item it, h, by simp⟩

/-- C4 (amended): every item the intersect scan emits is re-tagged with the
scan's own bit, and its key was either delivered by every one of the N
child scans (full bitmask reached) or — via the final `sendItems` sweep —
merely delivered by the first child to terminate; the `limit` bound is
enforced only by the processing loop (at most L sends there when L > 0,
the sweep not counting against it); and, conversely, with no limit, no
external stop and a recorded first child termination, every key delivered
by all N children is emitted. -/
theorem C4_intersectScan_amended (nscans : Nat) (limit : Int) (scanBit : Nat)
    (events : List ISEvent) (hn : 0 < nscans) :
    (∀ x ∈ runIntersect nscans limit scanBit events,
        x.bit = scanBit ∧
        ((∀ i < nscans, deliveredb events x.key i = true) ∨
         (∃ b, firstTermBit events = some b ∧
            deliveredb events x.key b = true))) ∧
    (0 < limit →
        (((runLoop scanBit nscans (fullBitsOf nscans) limit events
            ⟨[], [], 0, []⟩ nscans 0).st.out.length : Int)) ≤ limit) ∧
    (limit ≤ 0 → ISEvent.stop ∉ events →
        ∀ b0, firstTermBit events = some b0 → b0 < nscans →
        ∀ k, (∀ i < nscans, deliveredb events k i = true) →
        ∃ x ∈ runIntersect nscans limit scanBit events, x.key = k) := by
  have hnz : ¬ (nscans = 0) := Nat.pos_iff_ne_zero.1 hn
  obtain ⟨hb', hv', ho'⟩ := runLoop_inv
    (P := fun k b => deliveredb events k b = true) scanBit nscans limit events
    ⟨[], [], 0, []⟩ nscans 0 (fun it' hit' => deliveredb_of_mem hit')
    (by simp) (by simp) (by simp)
  have hri : runIntersect nscans limit scanBit events =
      (if ¬(runLoop scanBit nscans (fullBitsOf nscans) limit events
            ⟨[], [], 0, []⟩ nscans 0).stopped ∧
          (runLoop scanBit nscans (fullBitsOf nscans) limit events
            ⟨[], [], 0, []⟩ nscans 0).ok ∧
          (runLoop scanBit nscans (fullBitsOf nscans) limit events
            ⟨[], [], 0, []⟩ nscans 0).childBits ≠ 0 ∧
          (limit ≤ 0 ∨ (runLoop scanBit nscans (fullBitsOf nscans) limit events
            ⟨[], [], 0, []⟩ nscans 0).st.sent < limit)
        then (sendItems scanBit
            (runLoop scanBit nscans (fullBitsOf nscans) limit events
              ⟨[], [], 0, []⟩ nscans 0).childBits
            (runLoop scanBit nscans (fullBitsOf nscans) limit events
              ⟨[], [], 0, []⟩ nscans 0).st).out
        else (runLoop scanBit nscans (fullBitsOf nscans) limit events
            ⟨[], [], 0, []⟩ nscans 0).st.out) := by
    rw [runIntersect, if_neg hnz]
  set r := runLoop scanBit nscans (fullBitsOf nscans) limit events
    ⟨[], [], 0, []⟩ nscans 0 with hrdef
  refine ⟨?_, ?_, ?_⟩
  · -- soundness of every emitted item
    intro x hx
    rw [hri] at hx
    by_cases hcond : ¬r.stopped ∧ r.ok ∧ r.childBits ≠ 0 ∧
        (limit ≤ 0 ∨ r.st.sent < limit)
    · rw [if_pos hcond] at hx
      rcases runLoop_childBits scanBit nscans (fullBitsOf nscans) limit hn
          events ⟨[], [], 0, []⟩ with hcb | ⟨b, hb1, hb2⟩
      · exact absurd hcb hcond.2.2.1
      · have hb0 : Nat.testBit r.childBits b = true := by
          rw [hb2, Nat.one_shiftLeft, Nat.testBit_two_pow_self]
        rcases sendItems_go_sound (P := fun k i => deliveredb events k i = true)
            scanBit r.childBits r.st.bits r.st b hb0 hv' hb' x hx with h1 | h1
        · obtain ⟨hbit, hfull⟩ := ho' x h1
          exact ⟨hbit, Or.inl hfull⟩
        · exact ⟨h1.1, Or.inr ⟨b, hb1, h1.2⟩⟩
    · rw [if_neg hcond] at hx
      obtain ⟨hbit, hfull⟩ := ho' x hx
      exact ⟨hbit, Or.inl hfull⟩
  · -- processing-phase limit bound
    intro hlpos
    exact runLoop_limit scanBit nscans (fullBitsOf nscans) limit hlpos events
      ⟨[], [], 0, []⟩ nscans 0 (by simpa using hlpos) rfl
  · -- completeness: intersection keys are emitted
    intro hle hstop b0 hfirst hb0n k hk
    obtain ⟨hok, hstopped, hinvC, hvpC⟩ := runLoop_complete scanBit nscans
      (fullBitsOf nscans) limit hle events ⟨[], [], 0, []⟩ nscans 0
      (fun _ _ => False) hstop (fun k' b' h => h.elim) (by simp)
    have hcb := runLoop_childBits_first scanBit nscans (fullBitsOf nscans)
      limit hn hle events ⟨[], [], 0, []⟩ b0 hstop hfirst
    have hcbne : r.childBits ≠ 0 := by
      rw [hcb, Nat.one_shiftLeft]
      exact Nat.pos_iff_ne_zero.1 (Nat.pos_pow_of_pos b0 (by norm_num))
    have hcond : ¬r.stopped ∧ r.ok ∧ r.childBits ≠ 0 ∧
        (limit ≤ 0 ∨ r.st.sent < limit) := by
      refine ⟨?_, ?_, hcbne, Or.inl hle⟩
      · rw [hstopped]
        simp
      · rw [hok]
    rw [hri, if_pos hcond]
    by_cases hout : ∃ x ∈ r.st.out, x.key = k
    · obtain ⟨x, hx1, hx2⟩ := hout
      exact ⟨x, sendItems_go_out_mono _ _ _ _ hx1, hx2⟩
    · have hbitsk : ∀ i, i < nscans →
          Nat.testBit ((alookup r.st.bits k).getD 0) i = true := by
        intro i hi
        rcases hinvC k i (Or.inr (hk i hi)) with h | h
        · exact absurd h hout
        · exact h
      cases hlk : alookup r.st.bits k with
      | none =>
        have h0 := hbitsk 0 hn
        rw [hlk] at h0
        simp [Nat.zero_testBit] at h0
      | some bs =>
        have hbs : ∀ i, i < nscans → Nat.testBit bs i = true := by
          intro i hi
          have := hbitsk i hi
          rw [hlk] at this
          simpa using this
        have hmem : (k, bs) ∈ r.st.bits := alookup_mem hlk
        have hcond2 : (bs &&& r.childBits) ^^^ r.childBits = 0 := by
          rw [hcb]
          refine Nat.xor_eq_zero.2 ?_
          refine Nat.eq_of_testBit_eq ?_
          intro j
          rw [Nat.testBit_land, Nat.one_shiftLeft]
          by_cases hj : b0 = j
          · subst hj
            rw [Nat.testBit_two_pow_self]
            simp [hbs b0 hb0n]
          · rw [Nat.testBit_two_pow_of_ne hj]
            simp
        exact sendItems_go_complete scanBit r.childBits r.st.bits r.st k bs
          hv' hmem hcond2 (hvpC (k, bs) hmem)

/-- C4 counterexample: with two children where child 0 delivers key `"a"`,
child 1 delivers nothing, and child 0 terminates first, the scan emits
`"a"` (via the MB-22321 final sweep) even though the intersection of the
children's key multisets is empty — refuting the claim that the emitted
items are exactly the keys present in all N children. -/
theorem C4_counterexample :
    runIntersect 2 0 3
        [ISEvent.item ⟨"a", 0⟩, ISEvent.childTerm 0, ISEvent.childTerm 1]
      = [⟨"a", 3⟩] ∧
    deliveredb [ISEvent.item ⟨"a", 0⟩, ISEvent.childTerm 0, ISEvent.childTerm 1]
        "a" 1 = false := by
  constructor
  · rfl
  · rfl

/-- Witness for the C4 amended theorem at a concrete run. -/
theorem C4_intersectScan_amended_witness :
    (∀ x ∈ runIntersect 2 0 3
        [ISEvent.item ⟨"a", 0⟩, ISEvent.childTerm 0, ISEvent.childTerm 1],
        x.bit = 3 ∧
        ((∀ i < 2, deliveredb
            [ISEvent.item ⟨"a", 0⟩, ISEvent.childTerm 0, ISEvent.childTerm 1]
            x.key i = true) ∨
         (∃ b, firstTermBit
            [ISEvent.item ⟨"a", 0⟩, ISEvent.childTerm 0, ISEvent.childTerm 1]
              = some b ∧
          deliveredb
            [ISEvent.item ⟨"a", 0⟩, ISEvent.childTerm 0, ISEvent.childTerm 1]
            x.key b = true))) ∧
    ((0 : Int) < 0 →
        (((runLoop 3 2 (fullBitsOf 2) 0
            [ISEvent.item ⟨"a", 0⟩, ISEvent.childTerm 0, ISEvent.childTerm 1]
            ⟨[], [], 0, []⟩ 2 0).st.out.length : Int)) ≤ 0) ∧
    ((0 : Int) ≤ 0 → ISEvent.stop ∉
        [ISEvent.item ⟨"a", 0⟩, ISEvent.childTerm 0, ISEvent.childTerm 1] →
        ∀ b0, firstTermBit
          [ISEvent.item ⟨"a", 0⟩, ISEvent.childTerm 0, ISEvent.childTerm 1]
            = some b0 → b0 < 2 →
        ∀ k, (∀ i < 2, deliveredb
            [ISEvent.item ⟨"a", 0⟩, ISEvent.childTerm 0, ISEvent.childTerm 1]
            k i = true) →
        ∃ x ∈ runIntersect 2 0 3
          [ISEvent.item ⟨"a", 0⟩, ISEvent.childTerm 0, ISEvent.childTerm 1],
          x.key = k) :=
  C4_intersectScan_amended 2 0 3
    [ISEvent.item ⟨"a", 0⟩, ISEvent.childTerm 0, ISEvent.childTerm 1]
    (by decide)

/-! ### Sargability: `sarg.VisitLT` (src/planner/sarg_lt.go)

The expression fragment needed by the less-than sargability visitor:
field references, literal constants, `<` comparisons and `+` arithmetic
(the latter to exhibit predicates that depend on a key without either side
being equivalent to it).  The expression interface methods
(`EquivalentTo`, `DependsOn`, `Static`) and `SubsetOf` live outside the
snapshot and are modelled from the spec. -/

/-- Literal constant values appearing in embedded expressions. -/
inductive CVal where
  | nullC
  | boolC (b : Bool)
  | numC (n : Int)
  | strC (s : String)
deriving DecidableEq

/-- The embedded expression fragment. -/
inductive Expr where
  | fieldE (name : String)
  | constE (v : CVal)
  | ltE (a b : Expr)
  | addE (a b : Expr)
deriving DecidableEq

/-- Modelled from the spec: `Expression.EquivalentTo` — equivalence of
expressions, structural equality on the embedded fragment. -/
def equivalentTo (a b : Expr) : Bool := decide (a = b)

/-- Whether `key` occurs as a subterm of an expression (including the
expression itself). -/
def occursIn (key : Expr) : Expr → Bool
  | .fieldE s => decide (Expr.fieldE s = key)
  | .constE v => decide (Expr.constE v = key)
  | .ltE a b => decide (Expr.ltE a b = key) || occursIn key a || occursIn key b
  | .addE a b => decide (Expr.addE a b = key) || occursIn key a || occursIn key b

/-- Whether an expression contains a field reference. -/
def hasFieldE : Expr → Bool
  | .fieldE _ => true
  | .constE _ => false
  | .ltE a b => hasFieldE a || hasFieldE b
  | .addE a b => hasFieldE a || hasFieldE b

/-- Modelled from the spec: `Expression.DependsOn` — the predicate depends
on the key when the key occurs within it. -/
def dependsOn (pred key : Expr) : Bool := occursIn key pred

/-- Modelled from the spec: `Expression.Static` — the constant-foldable
form: the expression itself when it contains no field reference, nil
otherwise. -/
def staticE (e : Expr) : Option Expr := if hasFieldE e then none else some e

/-- Modelled from the spec: `SubsetOf(pred, key)` in the default case of
the plannerbase subset visitor (src/plannerbase/subset_within.go routes
`VisitWithin` to `visitDefault`): a predicate is a subset of an equivalent
expression. -/
def subsetOf (pred key : Expr) : Bool := equivalentTo pred key

/-- `datastore.Inclusion` (NEITHER / LOW / HIGH / BOTH). -/
inductive Inclusion where
  | neither
  | lowInc
  | highInc
  | both
deriving DecidableEq

/-- `plan.Span`: the range (low/high/inclusion) plus the `Exact` flag;
a freshly allocated span has nil bounds, NEITHER inclusion and
`Exact = false`. -/
structure SpanR where
  low : List Expr
  high : List Expr
  inclusion : Inclusion
  exact : Bool
deriving DecidableEq

/-- `_NULL_EXPRS`: the singleton list holding the NULL literal. -/
def nullExprs : List Expr := [Expr.constE CVal.nullC]

/-- The possible results of a sarg visit: a concrete span list, the
`_SELF_SPANS` or `_VALUED_SPANS` sentinels, or nil. -/
inductive SargResult where
  | spansR (spans : List SpanR)
  | selfSpans
  | valuedSpans
  | nilR
deriving DecidableEq

/-- `sarg.VisitLT` (src/planner/sarg_lt.go lines 18-46) on a predicate
`first < second` against index key `key`. -/
def visitLT (key first second : Expr) : SargResult :=
  if subsetOf (.ltE first second) key then .selfSpans
  else if equivalentTo first key then
    match staticE second with
    | some cs =>
      .spansR [{ low := nullExprs, high := [cs], inclusion := .neither,
                 exact := true }]
    | none => .valuedSpans
  else if equivalentTo second key then
    match staticE first with
    | some cs =>
      .spansR [{ low := [cs], high := [], inclusion := .neither,
                 exact := true }]
    | none => .valuedSpans
  else if dependsOn (.ltE first second) key then .valuedSpans
  else .nilR

theorem ltE_ne_first : ∀ (a b : Expr), Expr.ltE a b ≠ a
  | .fieldE _, _, h => Expr.noConfusion h
  | .constE _, _, h => Expr.noConfusion h
  | .addE _ _, _, h => Expr.noConfusion h
  | .ltE a1 a2, b, h => by
    injection h with h1 h2
    exact ltE_ne_first a1 a2 h1

theorem ltE_ne_second : ∀ (a b : Expr), Expr.ltE a b ≠ b
  | _, .fieldE _, h => Expr.noConfusion h
  | _, .constE _, h => Expr.noConfusion h
  | _, .addE _ _, h => Expr.noConfusion h
  | a, .ltE b1 b2, h => by
    injection h with h1 h2
    exact ltE_ne_second b1 b2 h2

theorem occursIn_self (e : Expr) : occursIn e e = true := by
  cases e <;> simp [occursIn]

/-- C6: the derived span for `k < c` is `{Low: NULL_EXPRS, High: {c},
Inclusion: NEITHER, Exact: true}`; for `c < k` it is `{Low: {c},
Inclusion: NEITHER, Exact: true}`; a predicate that depends on the key
without either side being equivalent to it — or whose bound has no static
form — yields the `_VALUED_SPANS` sentinel; and a predicate that does not
mention the key yields nil. -/
theorem C6_sarg_visitLT :
    (∀ key c : Expr, hasFieldE c = false →
        visitLT key key c =
          .spansR [{ low := nullExprs, high := [c], inclusion := .neither,
                     exact := true }]) ∧
    (∀ key c : Expr, hasFieldE c = false → equivalentTo c key = false →
        visitLT key c key =
          .spansR [{ low := [c], high := [], inclusion := .neither,
                     exact := true }]) ∧
    (∀ key c : Expr, hasFieldE c = true →
        visitLT key key c = .valuedSpans) ∧
    (∀ key c : Expr, hasFieldE c = true → equivalentTo c key = false →
        visitLT key c key = .valuedSpans) ∧
    (∀ key a b : Expr, equivalentTo a key = false →
        equivalentTo b key = false → key ≠ Expr.ltE a b →
        dependsOn (Expr.ltE a b) key = true →
        visitLT key a b = .valuedSpans) ∧
    (∀ key a b : Expr, dependsOn (Expr.ltE a b) key = false →
        visitLT key a b = .nilR) := by
  have hsub : ∀ a b key : Expr, key ≠ Expr.ltE a b →
      subsetOf (Expr.ltE a b) key = false := by
    intro a b key h
    simp [subsetOf, equivalentTo, Ne.symm h]
  refine ⟨?_, ?_, ?_, ?_, ?_, ?_⟩
  · intro key c hc
    rw [visitLT, if_neg ?_, if_pos ?_]
    · rw [staticE, if_neg (by simp [hc])]
    · simp [equivalentTo]
    · simp [subsetOf, equivalentTo]
      exact fun h => ltE_ne_first key c h
  · intro key c hc hne
    rw [visitLT, if_neg ?_, if_neg ?_, if_pos ?_]
    · rw [staticE, if_neg (by simp [hc])]
    · simp [equivalentTo]
    · simp only [hne]
      exact Bool.false_ne_true
    · simp [subsetOf, equivalentTo]
      exact fun h => ltE_ne_second c key h
  · intro key c hc
    rw [visitLT, if_neg ?_, if_pos ?_]
    · rw [staticE, if_pos (by simp [hc])]
    · simp [equivalentTo]
    · simp [subsetOf, equivalentTo]
      exact fun h => ltE_ne_first key c h
  · intro key c hc hne
    rw [visitLT, if_neg ?_, if_neg ?_, if_pos ?_]
    · rw [staticE, if_pos (by simp [hc])]
    · simp [equivalentTo]
    · simp only [hne]
      exact Bool.false_ne_true
    · simp [subsetOf, equivalentTo]
      exact fun h => ltE_ne_second c key h
  · intro key a b ha hb hne hdep
    rw [visitLT, if_neg ?_, if_neg ?_, if_neg ?_, if_pos hdep]
    · simp only [hb]
      exact Bool.false_ne_true
    · simp only [ha]
      exact Bool.false_ne_true
    · rw [hsub a b key hne]
      exact Bool.false_ne_true
  · intro key a b hdep
    have h1 : ¬ (Expr.ltE a b = key) := by
      intro h
      rw [dependsOn, h, occursIn_self] at hdep
      simp at hdep
    have h2 : equivalentTo a key = false := by
      cases hd : equivalentTo a key
      · rfl
      · exfalso
        have ha : a = key := of_decide_eq_true hd
        have hoa : occursIn key a = true := by
          rw [ha]
          exact occursIn_self key
        rw [dependsOn, occursIn, hoa] at hdep
        simp at hdep
    have h3 : equivalentTo b key = false := by
      cases hd : equivalentTo b key
      · rfl
      · exfalso
        have hb : b = key := of_decide_eq_true hd
        have hob : occursIn key b = true := by
          rw [hb]
          exact occursIn_self key
        rw [dependsOn, occursIn, hob] at hdep
        simp at hdep
    rw [visitLT, if_neg ?_, if_neg ?_, if_neg ?_, if_neg ?_]
    · simp only [hdep]
      exact Bool.false_ne_true
    · simp only [h3]
      exact Bool.false_ne_true
    · simp only [h2]
      exact Bool.false_ne_true
    · simp only [subsetOf, equivalentTo]
      simp only [decide_eq_true_eq]
      exact h1

/-- Witness for C6 at concrete expressions: key `k`, constants, and the
predicate `k + 1 < 5` (depends on `k` without either side equivalent). -/
theorem C6_sarg_visitLT_witness :
    (visitLT (Expr.fieldE "k") (Expr.fieldE "k") (Expr.constE (CVal.numC 3)) =
      .spansR [{ low := nullExprs, high := [Expr.constE (CVal.numC 3)],
                 inclusion := .neither, exact := true }]) ∧
    (visitLT (Expr.fieldE "k") (Expr.constE (CVal.numC 3)) (Expr.fieldE "k") =
      .spansR [{ low := [Expr.constE (CVal.numC 3)], high := [],
                 inclusion := .neither, exact := true }]) ∧
    (visitLT (Expr.fieldE "k")
        (Expr.addE (Expr.fieldE "k") (Expr.constE (CVal.numC 1)))
        (Expr.constE (CVal.numC 5)) = .valuedSpans) ∧
    (visitLT (Expr.fieldE "k") (Expr.constE (CVal.numC 7))
        (Expr.constE (CVal.numC 5)) = .nilR) :=
  ⟨C6_sarg_visitLT.1 _ _ (by decide),
   C6_sarg_visitLT.2.1 _ _ (by decide) (by decide),
   C6_sarg_visitLT.2.2.2.2.1 _ _ _ (by decide) (by decide) (by decide)
     (by decide),
   C6_sarg_visitLT.2.2.2.2.2 _ _ _ (by decide)⟩

/-! ### Primary-scan planning: `buildPrimaryIndex`
(src/planner/build_scan_primary.go lines 111-164) -/

/-- `datastore.IndexState`: the fragment relevant to primary-index
selection. -/
inductive IndexState where
  | online
  | offline
  | deferredI
deriving DecidableEq

/-- A datastore index as `buildPrimaryIndex` inspects it: its name,
its `IsPrimary()` answer, whether the Go interface cast to
`datastore.PrimaryIndex` succeeds, and its `State()`. -/
structure DSIndex where
  name : String
  isPrimary : Bool
  castsPrimary : Bool
  state : IndexState
deriving DecidableEq

/-- Modelled from the spec: a keyspace exposes `Indexers()`, each
indexer listing its `PrimaryIndexes()`. -/
structure KeyspaceM where
  indexers : List (List DSIndex)
deriving DecidableEq

/-- The hint loop of `buildPrimaryIndex`: the first hinted index reporting
`IsPrimary()`. -/
def findHintedPrimary : List DSIndex → Option DSIndex
  | [] => none
  | idx :: rest => if idx.isPrimary then some idx else findHintedPrimary rest

/-- The inner loop over one indexer's primary indexes: return the first
ONLINE one, otherwise remember the last primary seen (the Go loop variable
`primary` retains its last assignment). -/
def goIndexer : List DSIndex → Option DSIndex → Sum DSIndex (Option DSIndex)
  | [], last => .inr last
  | p :: ps, _ => if p.state = .online then .inl p else goIndexer ps (some p)

/-- The outer loop over the keyspace's indexers. -/
def findOnlinePrimary : List (List DSIndex) → Option DSIndex →
    Sum DSIndex (Option DSIndex)
  | [], last => .inr last
  | indexer :: rest, last =>
    match goIndexer indexer last with
    | .inl p => .inl p
    | .inr last' => findOnlinePrimary rest last'

/-- The error message emitted when the keyspace has no primary index at
all. -/
def noPrimaryMsg (path : String) : String :=
  "No index available on keyspace " ++ path ++
    " that matches your query. Use CREATE PRIMARY INDEX ON " ++ path ++
    " to create a primary index, or check that your expected index is online."

/-- `buildPrimaryIndex(keyspace, indexes, node, force)`: prefer a hinted
primary (the cast failure is its own error); under `force` give up
silently; otherwise return the first ONLINE primary across the keyspace's
indexers, the keyspace-naming error when there is no primary at all, or
the `not online` error naming the last primary seen. -/
def buildPrimaryIndex (ks : KeyspaceM) (indexes : List DSIndex)
    (nodePath : String) (force : Bool) : Except String (Option DSIndex) :=
  match findHintedPrimary indexes with
  | some idx =>
    if idx.castsPrimary then .ok (some idx)
    else .error ("Unable to cast index " ++ idx.name ++ " to primary index")
  | none =>
    if force then .ok none
    else
      match findOnlinePrimary ks.indexers none with
      | .inl p => .ok (some p)
      | .inr none => .error (noPrimaryMsg nodePath)
      | .inr (some p) => .error ("Primary index " ++ p.name ++ " not online.")

/-- The final value of the Go loop variable `primary` when no ONLINE
primary is found: the last primary listed across the indexers. -/
def lastPrim : List (List DSIndex) → Option DSIndex → Option DSIndex
  | [], last => last
  | indexer :: rest, last => lastPrim rest (goLast indexer last)
where
  goLast : List DSIndex → Option DSIndex → Option DSIndex
  | [], last => last
  | p :: ps, _ => goLast ps (some p)

theorem goIndexer_all_offline (l : List DSIndex) (last : Option DSIndex)
    (h : ∀ i ∈ l, i.state ≠ .online) :
    goIndexer l last = .inr (lastPrim.goLast l last) := by
  induction l generalizing last with
  | nil => rfl
  | cons p ps ih =>
    rw [goIndexer, if_neg (h p (List.mem_cons_self _ _)), lastPrim.goLast]
    exact ih _ (fun i hi => h i (List.mem_cons_of_mem _ hi))

theorem findOnlinePrimary_all_offline (ls : List (List DSIndex))
    (last : Option DSIndex)
    (h : ∀ l ∈ ls, ∀ i ∈ l, i.state ≠ .online) :
    findOnlinePrimary ls last = .inr (lastPrim ls last) := by
  induction ls generalizing last with
  | nil => rfl
  | cons indexer rest ih =>
    rw [findOnlinePrimary,
      goIndexer_all_offline indexer last (h indexer (List.mem_cons_self _ _))]
    exact ih _ (fun l hl i hi => h l (List.mem_cons_of_mem _ hl) i hi)

/-- C7 counterexample: a keyspace whose only primary index is OFFLINE has
no ONLINE primary index and no hinted primary, yet planning fails with
`"Primary index ix not online."`, which neither names the keyspace nor
suggests CREATE PRIMARY INDEX — refuting the claim as stated. -/
theorem C7_counterexample :
    buildPrimaryIndex ⟨[[⟨"ix", true, true, .offline⟩]]⟩ [] "default:b" false
      = .error "Primary index ix not online." ∧
    ¬ ("CREATE PRIMARY INDEX".toList <:+:
        "Primary index ix not online.".toList) ∧
    ¬ ("default:b".toList <:+: "Primary index ix not online.".toList) := by
  refine ⟨rfl, by decide, by decide⟩

/-- C7 (amended): with no hinted primary and `force` unset, planning a
primary scan fails with the keyspace-naming message that suggests
`CREATE PRIMARY INDEX` exactly when the keyspace lists no primary index at
all; when primaries exist but none is ONLINE, it instead fails with
`"Primary index <name> not online."` naming the last primary seen. -/
theorem C7_primaryScan_amended :
    (∀ (ks : KeyspaceM) (indexes : List DSIndex) (nodePath : String),
        (∀ i ∈ indexes, i.isPrimary = false) →
        (∀ l ∈ ks.indexers, l = []) →
        buildPrimaryIndex ks indexes nodePath false
            = .error (noPrimaryMsg nodePath) ∧
        ("CREATE PRIMARY INDEX".toList <:+: (noPrimaryMsg nodePath).toList) ∧
        (nodePath.toList <:+: (noPrimaryMsg nodePath).toList)) ∧
    (∀ (ks : KeyspaceM) (indexes : List DSIndex) (nodePath : String)
        (p : DSIndex),
        (∀ i ∈ indexes, i.isPrimary = false) →
        (∀ l ∈ ks.indexers, ∀ i ∈ l, i.state ≠ .online) →
        lastPrim ks.indexers none = some p →
        buildPrimaryIndex ks indexes nodePath false
            = .error ("Primary index " ++ p.name ++ " not online.")) := by
  have hhint : ∀ indexes : List DSIndex,
      (∀ i ∈ indexes, i.isPrimary = false) →
      findHintedPrimary indexes = none := by
    intro indexes h
    induction indexes with
    | nil => rfl
    | cons i rest ih =>
      rw [findHintedPrimary, if_neg (by simp [h i (List.mem_cons_self _ _)])]
      exact ih (fun j hj => h j (List.mem_cons_of_mem _ hj))
  constructor
  · intro ks indexes nodePath hidx hempty
    have hoff : ∀ l ∈ ks.indexers, ∀ i ∈ l, i.state ≠ .online := by
      intro l hl i hi
      rw [hempty l hl] at hi
      simp at hi
    have hlast : lastPrim ks.indexers none = none := by
      have : ∀ last, (∀ l ∈ ks.indexers, l = ([] : List DSIndex)) →
          lastPrim ks.indexers last = last := by
        generalize ks.indexers = ls
        induction ls with
        | nil => intro last _; rfl
        | cons l rest ih =>
          intro last hq
          rw [lastPrim, hq l (List.mem_cons_self _ _), lastPrim.goLast]
          exact ih last (fun l' hl' => hq l' (List.mem_cons_of_mem _ hl'))
      exact this none hempty
    refine ⟨?_, ?_, ?_⟩
    · rw [buildPrimaryIndex, hhint indexes hidx]
      simp only [Bool.false_eq_true, if_false]
      rw [findOnlinePrimary_all_offline ks.indexers none hoff, hlast]
    · have hmid : "CREATE PRIMARY INDEX".toList <:+:
          " that matches your query. Use CREATE PRIMARY INDEX ON ".toList := by
        decide
      refine hmid.trans ?_
      refine ⟨("No index available on keyspace " ++ nodePath).toList,
        (nodePath ++ " to create a primary index, or check that your expected index is online.").toList, ?_⟩
      simp only [noPrimaryMsg, String.toList]
      simp [String.data_append]
    · refine ⟨"No index available on keyspace ".toList,
        (" that matches your query. Use CREATE PRIMARY INDEX ON " ++ nodePath ++
          " to create a primary index, or check that your expected index is online.").toList, ?_⟩
      simp only [noPrimaryMsg, String.toList]
      simp [String.data_append]
  · intro ks indexes nodePath p hidx hoff hlast
    rw [buildPrimaryIndex, hhint indexes hidx]
    simp only [Bool.false_eq_true, if_false]
    rw [findOnlinePrimary_all_offline ks.indexers none hoff, hlast]

/-- Witness for the C7 amended theorem at concrete keyspaces. -/
theorem C7_primaryScan_amended_witness :
    (buildPrimaryIndex ⟨[[]]⟩ [] "default:b" false
        = .error (noPrimaryMsg "default:b") ∧
      ("CREATE PRIMARY INDEX".toList <:+: (noPrimaryMsg "default:b").toList) ∧
      ("default:b".toList <:+: (noPrimaryMsg "default:b").toList)) ∧
    (buildPrimaryIndex ⟨[[⟨"ix", true, true, .offline⟩]]⟩ [] "default:b" false
        = .error ("Primary index " ++ "ix" ++ " not online.")) :=
  ⟨C7_primaryScan_amended.1 ⟨[[]]⟩ [] "default:b" (by simp)
      (by intro l hl; simpa using hl),
   C7_primaryScan_amended.2 ⟨[[⟨"ix", true, true, .offline⟩]]⟩ [] "default:b"
      ⟨"ix", true, true, .offline⟩ (by simp) (by decide) (by decide)⟩

/-! ### Plan object model and encoded-plan round trip (src/plan/parallel.go,
src/plan/delete.go, src/prepareds/prepareds.go `DecodePrepared`)

JSON documents are modelled as trees; the byte-level layers of the
encoded-plan pipeline (JSON text, gzip, base64 — all standard-library
collaborators outside this repository) are modelled from the spec as a
lossless codec between the JSON tree and the opaque encoded string. -/

/-- A JSON value (numbers as rationals, objects as field lists). -/
inductive JVal where
  | jnull
  | jbool (b : Bool)
  | jnum (q : ℚ)
  | jstr (s : String)
  | jarr (elems : List JVal)
  | jobj (fields : List (String × JVal))

/-- JSON object field lookup (`json.Unmarshal` struct-tag matching). -/
def jlookup : List (String × JVal) → String → Option JVal
  | [], _ => none
  | (k', v) :: rest, k => if k' = k then some v else jlookup rest k

/-- Read a string-typed field: a missing field is the Go zero value `""`;
a present field of the wrong type is an unmarshalling error. -/
def jgetStr (fields : List (String × JVal)) (k : String) : Option String :=
  match jlookup fields k with
  | none => some ""
  | some (.jstr s) => some s
  | some _ => none

/-- Read an int-typed field: missing yields the Go zero value `0`; a
non-integral or non-numeric value is an unmarshalling error. -/
def jgetInt (fields : List (String × JVal)) (k : String) : Option Int :=
  match jlookup fields k with
  | none => some 0
  | some (.jnum q) => if q.den = 1 then some q.num else none
  | some _ => none

/-- Size measure on JSON trees (fuel for the operator decoder). -/
def jsize : JVal → Nat
  | .jnull => 1
  | .jbool _ => 1
  | .jnum _ => 1
  | .jstr _ => 1
  | .jarr xs => jsizeL xs + 1
  | .jobj fs => jsizeF fs + 1
where
  jsizeL : List JVal → Nat
  | [] => 0
  | x :: xs => jsize x + jsizeL xs
  jsizeF : List (String × JVal) → Nat
  | [] => 0
  | (_, v) :: fs => jsize v + jsizeF fs

/-- The embedded physical operators: `Parallel` (src/plan/parallel.go) over
a keyspace-bound leaf `SendDelete` (src/plan/delete.go).  Expressions
attached to operators (the delete limit) are carried by their N1QL text,
`parser.Parse` and the expression stringer being mutually inverse
collaborators outside the snapshot. -/
inductive Op where
  | parallel (child : Op) (maxParallelism : Int)
  | sendDelete (ns bucket scope keyspace aliasF : String) (limit : Option String)
deriving DecidableEq

/-- The `"#operator"` discriminator each operator writes. -/
def opKind : Op → String
  | .parallel .. => "Parallel"
  | .sendDelete .. => "SendDelete"

/-- `MarshalBase`: `Parallel` writes `maxParallelism` only when positive
and its child under `"~child"`; `SendDelete` writes the keyspace path
(namespace/bucket/scope/keyspace — `MarshalKeyspace`, per the spec's
serialisation of keyspace-bound operators), the alias, and the limit
expression when present. -/
def marshalOp : Op → JVal
  | .parallel child mp =>
    .jobj ([("#operator", JVal.jstr "Parallel")] ++
      (if mp > 0 then [("maxParallelism", JVal.jnum (mp : ℚ))] else []) ++
      [("~child", marshalOp child)])
  | .sendDelete ns bucket scope keyspace aliasF limit =>
    .jobj ([("#operator", JVal.jstr "SendDelete"),
      ("namespace", JVal.jstr ns), ("bucket", JVal.jstr bucket),
      ("scope", JVal.jstr scope), ("keyspace", JVal.jstr keyspace),
      ("alias", JVal.jstr aliasF)] ++
      (match limit with
       | some l => [("limit", JVal.jstr l)]
       | none => []))

/-- Reading the child discriminator (`child_type` unmarshalling): fails on
a non-object, defaults to `""` when the field is absent. -/
def readOpKind (j : JVal) : Option String :=
  match j with
  | .jobj fields => jgetStr fields "#operator"
  | _ => none

/-- `SendDelete.UnmarshalJSON` (src/plan/delete.go lines 77-105): restore
alias and limit (parsing only a non-empty limit string) and re-resolve the
keyspace from the four path names (`datastore.GetKeyspace`, modelled from
the spec as reconstructing the path). -/
def unmarshalSendDelete (j : JVal) : Option Op :=
  match j with
  | .jobj fields => do
    let ns ← jgetStr fields "namespace"
    let bucket ← jgetStr fields "bucket"
    let scope ← jgetStr fields "scope"
    let keyspace ← jgetStr fields "keyspace"
    let aliasF ← jgetStr fields "alias"
    let lim ← jgetStr fields "limit"
    some (.sendDelete ns bucket scope keyspace aliasF
      (if lim = "" then none else some lim))
  | _ => none

/-- `MakeOperator` (modelled from the spec: dispatch on the `"#operator"`
discriminator) together with `Parallel.UnmarshalJSON`
(src/plan/parallel.go lines 68-91): read `maxParallelism` (zero when
omitted), extract the raw child, read the child's discriminator and
dispatch recursively.  The `fuel` argument bounds the recursion depth by
the size of the JSON tree. -/
def makeOperator : Nat → String → JVal → Option Op
  | 0, _, _ => none
  | fuel + 1, kind, j =>
    match kind with
    | "Parallel" =>
      (match j with
       | .jobj fields => do
         let mp ← jgetInt fields "maxParallelism"
         let childRaw ← jlookup fields "~child"
         let ck ← readOpKind childRaw
         let child ← makeOperator fuel ck childRaw
         some (.parallel child mp)
       | _ => none)
    | "SendDelete" => unmarshalSendDelete j
    | _ => none

/-- Modelled from the spec: the byte-level encoded plan
(`base64(gzip(JSON-text))`) — a lossless codec on the JSON tree it
denotes, or garbage that fails decoding. -/
inductive EncStr where
  | wellFormed (j : JVal)
  | garbage

/-- base64-decode + gunzip + JSON-text parse, as one lossless codec. -/
def decodeLayers : EncStr → Option JVal
  | .wellFormed j => some j
  | .garbage => none

/-- JSON-text print + gzip + base64-encode. -/
def encodeLayers (j : JVal) : EncStr := .wellFormed j

/-- `plan.Prepared` (its source file is not under the snapshot).  Modelled
from the spec: the header carries the name and statement text, the
operator tree and the cached encoded plan. -/
structure Prepared where
  name : String
  text : String
  encodedPlan : Option EncStr
  op : Option Op

/-- Modelled from the spec: `plan.Prepared.MarshalJSON` — the operator
tree plus the header fields. -/
def marshalPrepared (p : Prepared) : JVal :=
  .jobj ([("name", JVal.jstr p.name), ("text", JVal.jstr p.text)] ++
    (match p.op with
     | some o => [("operator", marshalOp o)]
     | none => []))

/-- Modelled from the spec: `plan.Prepared.UnmarshalJSON` — read the
header fields and decode the operator tree by `"#operator"` dispatch. -/
def unmarshalPreparedJ (j : JVal) : Option Prepared :=
  match j with
  | .jobj fields => do
    let name ← jgetStr fields "name"
    let text ← jgetStr fields "text"
    let op ← (match jlookup fields "operator" with
      | none => some none
      | some oj => do
        let kind ← readOpKind oj
        let o ← makeOperator (jsize oj) kind oj
        some (some o))
    some ⟨name, text, none, op⟩
  | _ => none

/-- The decode pipeline of `DecodePrepared` (src/prepareds/prepareds.go
lines 535-549): base64-decode, gunzip, JSON-unmarshal with `"#operator"`
dispatch. -/
def decodeEncodedPlan (e : EncStr) : Option Prepared :=
  (decodeLayers e).bind unmarshalPreparedJ

/-- `Prepared.BuildEncodedPlan`: marshal the plan and push it through
gzip and base64. -/
def encodePlan (p : Prepared) : EncStr := encodeLayers (marshalPrepared p)

/-- Clamp non-positive `maxParallelism` to the zero value it decodes back
to (the only numeric field the embedded operators omit when zero-valued). -/
def normOp : Op → Op
  | .parallel child mp => .parallel (normOp child) (if mp > 0 then mp else 0)
  | .sendDelete ns b sc ks al lim => .sendDelete ns b sc ks al lim

/-- A plan's decoded image: same header, no cached encoded plan, operator
tree with zero-valued numeric fields normalised. -/
def normPrepared (p : Prepared) : Prepared :=
  { name := p.name, text := p.text, encodedPlan := none,
    op := p.op.map normOp }

/-- Structural equality of plans modulo zero-valued numeric fields (and
modulo the cached encoded-plan string, which decode does not restore). -/
def structEqModZero (p q : Prepared) : Bool :=
  decide (p.name = q.name) && decide (p.text = q.text) &&
    decide (p.op.map normOp = q.op.map normOp)

/-- Wellformedness of the embedded expression texts: a present limit
expression has non-empty text (real expressions never stringify to ""). -/
def wfOp : Op → Bool
  | .parallel child _ => wfOp child
  | .sendDelete _ _ _ _ _ lim => decide (lim ≠ some "")

/-- Wellformedness of a plan: its operators' expression texts are
non-empty. -/
def wfPrepared (p : Prepared) : Bool :=
  match p.op with
  | none => true
  | some o => wfOp o

/-- Recursion depth needed to decode an operator tree. -/
def opDepth : Op → Nat
  | .parallel child _ => opDepth child + 1
  | .sendDelete .. => 1

theorem readOpKind_marshal (o : Op) :
    readOpKind (marshalOp o) = some (opKind o) := by
  cases o <;> rfl

theorem normOp_idem (o : Op) : normOp (normOp o) = normOp o := by
  induction o with
  | parallel child mp ih =>
    by_cases h : mp > 0 <;> simp [normOp, ih, h]
  | sendDelete ns b sc ks al lim => rfl

theorem makeOperator_marshal (o : Op) :
    ∀ fuel, opDepth o ≤ fuel → wfOp o = true →
    makeOperator fuel (opKind o) (marshalOp o) = some (normOp o) := by
  induction o with
  | parallel child mp ih =>
    intro fuel hf hwf
    match fuel, hf with
    | f + 1, hf =>
      have hchild := ih f (by simpa [opDepth] using hf) (by simpa [wfOp] using hwf)
      show makeOperator (f + 1) "Parallel" (marshalOp (Op.parallel child mp))
        = some (normOp (Op.parallel child mp))
      by_cases hmp : mp > 0
      · simp [marshalOp, makeOperator, hmp, jgetInt, jlookup,
          readOpKind_marshal, hchild, normOp, Rat.den_intCast, Rat.num_intCast]
      · simp [marshalOp, makeOperator, hmp, jgetInt, jlookup,
          readOpKind_marshal, hchild, normOp]
  | sendDelete ns b sc ks al lim =>
    intro fuel hf hwf
    match fuel, hf with
    | f + 1, _ =>
      show makeOperator (f + 1) "SendDelete"
          (marshalOp (Op.sendDelete ns b sc ks al lim))
        = some (normOp (Op.sendDelete ns b sc ks al lim))
      cases lim with
      | none =>
        simp [marshalOp, makeOperator, unmarshalSendDelete, jgetStr,
          jlookup, normOp]
      | some l =>
        have hl : ¬ (l = "") := by simpa [wfOp] using hwf
        simp [marshalOp, makeOperator, unmarshalSendDelete, jgetStr,
          jlookup, normOp, hl]

theorem opDepth_le_jsize (o : Op) : opDepth o ≤ jsize (marshalOp o) := by
  induction o with
  | parallel child mp ih =>
    by_cases hmp : mp > 0 <;>
      simp only [marshalOp, opDepth, jsize, hmp, if_true, if_false,
        List.cons_append, List.nil_append, jsize.jsizeF] <;>
      omega
  | sendDelete ns b sc ks al lim =>
    cases lim <;> simp [marshalOp, opDepth, jsize, jsize.jsizeF]

/-- C1: decoding the encoded plan of a (wellformed) plan with non-empty
name — base64-decode, gunzip, JSON-unmarshal with `"#operator"` dispatch —
restores a plan with the same name, structurally equal modulo zero-valued
numeric fields (`Parallel.maxParallelism` is omitted when not positive and
decodes back to the zero value). -/
theorem C1_encodedPlan_roundTrip (p : Prepared) (_h1 : p.name ≠ "")
    (h2 : wfPrepared p = true) :
    decodeEncodedPlan (encodePlan p) = some (normPrepared p) ∧
    (normPrepared p).name = p.name ∧
    structEqModZero p (normPrepared p) = true := by
  refine ⟨?_, rfl, ?_⟩
  · show (decodeLayers (encodeLayers (marshalPrepared p))).bind unmarshalPreparedJ
      = some (normPrepared p)
    show unmarshalPreparedJ (marshalPrepared p) = some (normPrepared p)
    cases hop : p.op with
    | none =>
      simp [marshalPrepared, unmarshalPreparedJ, jgetStr, jlookup, hop,
        normPrepared]
    | some o =>
      have hro := readOpKind_marshal o
      have hmo := makeOperator_marshal o (jsize (marshalOp o))
        (opDepth_le_jsize o) (by simpa [wfPrepared, hop] using h2)
      simp [marshalPrepared, unmarshalPreparedJ, jgetStr, jlookup, hop,
        normPrepared, hro, hmo]
  · simp only [structEqModZero, normPrepared]
    have : (p.op.map normOp).map normOp = p.op.map normOp := by
      cases p.op with
      | none => rfl
      | some o => simp [normOp_idem]
    simp [this]

/-- Witness for C1 at a concrete plan with a non-positive
`maxParallelism`. -/
theorem C1_encodedPlan_roundTrip_witness :
    decodeEncodedPlan (encodePlan
        ⟨"p1", "DELETE FROM b", none,
          some (.parallel (.sendDelete "default" "" "" "b" "b" none) 0)⟩)
      = some (normPrepared
        ⟨"p1", "DELETE FROM b", none,
          some (.parallel (.sendDelete "default" "" "" "b" "b" none) 0)⟩) ∧
    (normPrepared
        ⟨"p1", "DELETE FROM b", none,
          some (.parallel (.sendDelete "default" "" "" "b" "b" none) 0)⟩).name
      = "p1" ∧
    structEqModZero
        ⟨"p1", "DELETE FROM b", none,
          some (.parallel (.sendDelete "default" "" "" "b" "b" none) 0)⟩
        (normPrepared
          ⟨"p1", "DELETE FROM b", none,
            some (.parallel (.sendDelete "default" "" "" "b" "b" none) 0)⟩)
      = true :=
  C1_encodedPlan_roundTrip _ (by decide) (by decide)

/-! ### Prepared-statement cache (src/prepareds/prepareds.go)

`util.GenCache` (the generic bounded LRU cache) and
`distributed.RemoteAccess` are collaborators outside the snapshot; they
are modelled from the spec — the cache as a name-keyed map (its capacity
bound and MRU order are not exercised by the verified claims), the remote
access through oracles in an environment record.  Sequential modelling:
each exported operation is a function from cache state to cache state. -/

/-- The error kinds of the prepared subsystem (identifier-stable). -/
inductive ErrK where
  | preparedName (msg : String)
  | noSuchPrepared (name : String)
  | unrecognized (msg : String)
  | preparedDecoding
  | encodingNameMismatch (name : String)
  | preparedEncodingMismatch (name : String)
  | reprepareError (msg : String)
deriving DecidableEq

/-- prepared statements cache retrieval options. -/
def OPT_TRACK : Nat := 1
/-- check with remote node, if available. -/
def OPT_REMOTE : Nat := 2
/-- verify that the plan is still valid. -/
def OPT_VERIFY : Nat := 4
/-- metadata check only. -/
def OPT_METACHECK : Nat := 8

/-- `CacheEntry` (src/prepareds/prepareds.go lines 50-65): the plan, the
use tracking, the atomic 64-bit timing counters and the populated flag. -/
structure CacheEntry where
  prepared : Prepared
  lastUse : Nat
  uses : Int
  serviceTime : Nat
  requestTime : Nat
  minServiceTime : Nat
  minRequestTime : Nat
  maxServiceTime : Nat
  maxRequestTime : Nat
  populated : Bool

/-- Modelled from the spec: `util.GenCache` as a name-keyed map. -/
abbrev Cache := List (String × CacheEntry)

/-- `atomic.AddInt32` wrap-around. -/
def wrap32 (n : Int) : Int := ((n + 2 ^ 31) % 2 ^ 32) - 2 ^ 31

/-- The fresh entry built by `preparedCache.add` (lines 235-245): minima
at the `math.MaxUint64` sentinel, maxima and sums at the zero value,
`Uses`/`LastUse` initialised only under tracking. -/
def mkCacheEntry (p : Prepared) (populated track : Bool) (when : Nat) :
    CacheEntry :=
  { prepared := p
    lastUse := if track then when else 0
    uses := if track then 1 else 0
    serviceTime := 0
    requestTime := 0
    minServiceTime := 2 ^ 64 - 1
    minRequestTime := 2 ^ 64 - 1
    maxServiceTime := 0
    maxRequestTime := 0
    populated := populated }

/-- `preparedCache.add` (lines 232-269) over the spec-modelled
`GenCache.Add` AMEND/IGNORE protocol: insert a fresh entry when the name
is absent; otherwise consult `process` on the existing entry — on
approval amend it in place (new plan, `populated := false`, use tracking),
on refusal leave the cache unchanged.  Returns the cache together with
`none` (inserted) or `some` of the process verdict. -/
def preparedsAdd (cache : Cache) (p : Prepared) (populated track : Bool)
    (when : Nat) (process : CacheEntry → Bool) : Cache × Option Bool :=
  match alookup cache p.name with
  | none => ((p.name, mkCacheEntry p populated track when) :: cache, none)
  | some old =>
    if process old then
      (aset cache p.name
        { old with
            prepared := p
            populated := false
            uses := if track then wrap32 (old.uses + 1) else old.uses
            lastUse := if track then when else old.lastUse },
        some true)
    else (cache, some false)

/-- The result of `AddPrepared`: the new cache, the error, and the
asynchronous `distributePrepared` broadcasts it scheduled. -/
structure AddRes where
  cache : Cache
  err : Option ErrK
  distributed : List (String × Option EncStr)

/-- `AddPrepared` (lines 377-393): insert/amend via `add` whose process
closure refuses an entry holding a different statement text; on refusal
fail with the duplicate-name error, otherwise schedule distribution. -/
def addPrepared (cache : Cache) (p : Prepared) (when : Nat) : AddRes :=
  let r := preparedsAdd cache p false false when
    (fun ce => decide (ce.prepared.text = p.text))
  match r.2 with
  | some false =>
    ⟨cache, some (.preparedName ("duplicate name: " ++ p.name)), []⟩
  | _ => ⟨r.1, none, [(p.name, p.encodedPlan)]⟩

/-- `DeletePrepared` (lines 395-400): remove the entry, or fail with
`NoSuchPrepared` when the name is absent. -/
def deletePrepared (cache : Cache) (name : String) : Cache × Option ErrK :=
  match alookup cache name with
  | some _ => (aerase cache name, none)
  | none => (cache, some (.noSuchPrepared name))

/-- `preparedCache.get` (lines 204-230): nil unless the key is a truthy
string; under tracking, bump `Uses` and `LastUse` (and promote in the
MRU order, which the map model omits). -/
def pcGet (cache : Cache) (name : Value) (track : Bool) (now : Nat) :
    Cache × Option CacheEntry :=
  match name with
  | .stringV s =>
    if s = "" then (cache, none)
    else
      match alookup cache s with
      | none => (cache, none)
      | some ce =>
        if track then
          let ce' := { ce with uses := wrap32 (ce.uses + 1), lastUse := now }
          (aset cache s ce', some ce')
        else (cache, some ce)
  | _ => (cache, none)

/-- Modelled from the spec: `distributed.RemoteAccess().SplitKey` — a
`host::name` cache identifier splits at the first `::`; a plain name has
an empty host. -/
def splitKey (s : String) : String × String :=
  match strIndex s.toList "::".toList with
  | none => ("", s)
  | some i => (String.mk (s.toList.take i), String.mk (s.toList.drop (i + 2)))

/-- The collaborator oracles of the prepared subsystem: plan verification
and metadata checking against the live datastore, re-preparation
(parse + plan), and remote prepared fetching. -/
structure Env where
  verify : Prepared → Bool
  metadataCheck : Prepared → Bool
  reprep : Prepared → Except ErrK Prepared
  remoteFetch : String → String → Option EncStr
  whoAmI : String

mutual

/-- `value.Value.MarshalJSON` on the embedded fragment: MISSING and NULL
marshal as JSON null (an approximation for MISSING, which the verified
claims do not exercise); non-finite numbers are marshalling errors. -/
def valueMarshal : Value → Option JVal
  | .missingV => some .jnull
  | .nullV => some .jnull
  | .boolV b => some (.jbool b)
  | .numberV (.fin q) => some (.jnum q)
  | .numberV _ => none
  | .stringV s => some (.jstr s)
  | .objV fields =>
    match valueMarshalF fields with
    | some fs => some (.jobj fs)
    | none => none

/-- Field-list marshalling for object values. -/
def valueMarshalF : List (String × Value) → Option (List (String × JVal))
  | [] => some []
  | (k, v) :: rest =>
    match valueMarshal v, valueMarshalF rest with
    | some j, some js => some ((k, j) :: js)
    | _, _ => none

end

/-- `json.FirstFind(bytes, "text")` followed by string unmarshalling. -/
def findTextField (j : JVal) : Option String :=
  match j with
  | .jobj fields =>
    match jlookup fields "text" with
    | some (.jstr s) => some s
    | _ => none
  | _ => none

/-- `unmarshalPrepared` (lines 608-631): unmarshal the prepared; on a JSON
error, find the statement text and try re-preparing from scratch,
otherwise fail as unrecognized. -/
def unmarshalPreparedM (env : Env) (j : JVal) : Except ErrK Prepared :=
  match unmarshalPreparedJ j with
  | some p => .ok p
  | none =>
    match findTextField j with
    | some stmt =>
      match env.reprep ⟨"", stmt, none, none⟩ with
      | .ok pl => .ok pl
      | .error _ => .error (.unrecognized "JSON unmarshalling error")
    | none => .error (.unrecognized "JSON unmarshalling error")

/-- The result of `DecodePrepared`: final cache, result, scheduled
distributions, and whether `Verify` was consulted. -/
structure DecodeRes where
  cache : Cache
  result : Except ErrK Prepared
  distributed : List (String × EncStr)
  verifyCalled : Bool

/-- The insert-and-distribute tail of `DecodePrepared` (lines 580-605):
`add` with a process closure that refuses an existing entry for a
different statement text (`oldEntry.Prepared != prepared &&
oldEntry.Prepared.Text() != prepared.Text()` — pointer equality implies
text equality, so text equality decides it); refusal is the
encoding-mismatch error, success optionally distributes. -/
def decodeAdd (cache : Cache) (prepared_name : String) (stmt : EncStr)
    (p : Prepared) (good track distribute : Bool) (when : Nat) : DecodeRes :=
  let r := preparedsAdd cache p good track when
    (fun oldEntry => decide (oldEntry.prepared.text = p.text))
  match r.2 with
  | some false =>
    ⟨r.1, .error (.preparedEncodingMismatch prepared_name), [], true⟩
  | _ =>
    if distribute then ⟨r.1, .ok p, [(p.name, stmt)], true⟩
    else ⟨r.1, .ok p, [], true⟩

/-- `DecodePrepared` (lines 532-606): decode the layers (base64, gzip,
JSON), record the encoded plan on the prepared, reject a name mismatch
(MB-19509), return immediately for an anonymous plan, otherwise verify —
re-preparing when verification fails — then insert and optionally
distribute. -/
def decodePrepared (env : Env) (cache : Cache) (prepared_name : String)
    (prepared_stmt : EncStr) (track distribute : Bool) (when : Nat) :
    DecodeRes :=
  match decodeLayers prepared_stmt with
  | none => ⟨cache, .error .preparedDecoding, [], false⟩
  | some j =>
    match unmarshalPreparedM env j with
    | .error _ => ⟨cache, .error .preparedDecoding, [], false⟩
    | .ok p0 =>
      let p : Prepared := { p0 with encodedPlan := some prepared_stmt }
      if p.name ≠ "" ∧ prepared_name ≠ "" ∧ prepared_name ≠ p.name then
        ⟨cache, .error (.encodingNameMismatch prepared_name), [], false⟩
      else if p.name = "" then
        ⟨cache, .ok p, [], false⟩
      else if env.verify p then
        decodeAdd cache prepared_name prepared_stmt p true track distribute when
      else
        match env.reprep p with
        | .error e => ⟨cache, .error e, [], true⟩
        | .ok np =>
          decodeAdd cache prepared_name prepared_stmt np false track
            distribute when

/-- `preparedCache.getPrepared` (lines 406-504), sequentially: resolve a
string key via `SplitKey` and the local cache (with remote fallback when
so optioned), run the verification ladder (populated fast path with
metadata check, slow path under the entry lock setting `populated`,
reprepare-and-insert when verification fails and METACHECK is unset); an
object input resolves by its embedded name or unmarshals a transient
plan. -/
def getPrepared (env : Env) (cache : Cache) (prepared_stmt : Value)
    (options : Nat) (now : Nat) : Cache × Except ErrK Prepared :=
  let track := decide (options &&& OPT_TRACK ≠ 0)
  let remote := decide (options &&& OPT_REMOTE ≠ 0)
  let verify := decide (options &&& (OPT_VERIFY ||| OPT_METACHECK) ≠ 0)
  let metaCheck := decide (options &&& OPT_METACHECK ≠ 0)
  match prepared_stmt with
  | .stringV s =>
    let hostName := splitKey s
    let host := hostName.1
    let name := hostName.2
    let r1 := pcGet cache (.stringV name) track now
    match r1.2 with
    | none =>
      if remote && decide (host ≠ "") && decide (host ≠ env.whoAmI) then
        match env.remoteFetch host name with
        | some enc =>
          let r := decodePrepared env r1.1 name enc false false now
          match r.result with
          | .ok p => (r.cache, .ok p)
          | .error e => (r.cache, .error e)
        | none => (r1.1, .error (.noSuchPrepared name))
      else (r1.1, .error (.noSuchPrepared name))
    | some ce =>
      if verify then
        let step :=
          if ce.populated then
            (if !(env.metadataCheck ce.prepared) && !metaCheck then
                env.verify ce.prepared
              else env.metadataCheck ce.prepared,
             r1.1)
          else
            (env.verify ce.prepared,
             if env.verify ce.prepared then
               aset r1.1 name { ce with populated := true }
             else r1.1)
        if !step.1 && !metaCheck then
          match env.reprep ce.prepared with
          | .error e => (step.2, .error e)
          | .ok np =>
            let a := addPrepared step.2 np now
            match a.err with
            | some e => (a.cache, .error e)
            | none => (a.cache, .ok np)
        else (step.2, .ok ce.prepared)
      else (r1.1, .ok ce.prepared)
  | .objV fields =>
    match Value.field (.objV fields) "name" with
    | some nv =>
      let r1 := pcGet cache nv track now
      match r1.2 with
      | some ce => (r1.1, .ok ce.prepared)
      | none =>
        (r1.1,
          match valueMarshal (.objV fields) with
          | none => .error (.unrecognized "marshalling error")
          | some j => unmarshalPreparedM env j)
    | none =>
      (cache,
        match valueMarshal (.objV fields) with
        | none => .error (.unrecognized "marshalling error")
        | some j => unmarshalPreparedM env j)
  | _ => (cache, .error (.unrecognized "Invalid prepared stmt"))

/-- `util.TestAndSetUint64`: the CAS loop installs `new` iff
`cmp(old, new)` holds (sequentially: a conditional update). -/
def testAndSetUint64 (old new : Nat) (cmp : Nat → Nat → Bool) : Nat :=
  if cmp old new then new else old

/-- The per-entry update of `RecordPreparedMetrics` (lines 517-529):
wrap-around additions into the sums, CAS min/max updates. -/
def updateMetricsEntry (ce : CacheEntry) (requestTime serviceTime : Nat) :
    CacheEntry :=
  { ce with
      serviceTime := (ce.serviceTime + serviceTime) % 2 ^ 64
      minServiceTime :=
        testAndSetUint64 ce.minServiceTime serviceTime (fun o n => o > n)
      maxServiceTime :=
        testAndSetUint64 ce.maxServiceTime serviceTime (fun o n => o < n)
      requestTime := (ce.requestTime + requestTime) % 2 ^ 64
      minRequestTime :=
        testAndSetUint64 ce.minRequestTime requestTime (fun o n => o > n)
      maxRequestTime :=
        testAndSetUint64 ce.maxRequestTime requestTime (fun o n => o < n) }

/-- `RecordPreparedMetrics` (lines 506-530): skip nil or anonymous
prepareds; otherwise update the named entry's counters in place (a miss is
a no-op). -/
def recordPreparedMetrics (cache : Cache) (prepared : Option Prepared)
    (requestTime serviceTime : Nat) : Cache :=
  match prepared with
  | none => cache
  | some p =>
    if p.name = "" then cache
    else
      match alookup cache p.name with
      | none => cache
      | some ce => aset cache p.name (updateMetricsEntry ce requestTime serviceTime)

theorem addPrepared_absent {cache : Cache} {p : Prepared} {when : Nat}
    (h : alookup cache p.name = none) :
    addPrepared cache p when =
      ⟨(p.name, mkCacheEntry p false false when) :: cache, none,
        [(p.name, p.encodedPlan)]⟩ := by
  simp only [addPrepared, preparedsAdd, h]

theorem addPrepared_dup {cache : Cache} {p : Prepared} {when : Nat}
    {e : CacheEntry} (h : alookup cache p.name = some e)
    (ht : e.prepared.text ≠ p.text) :
    addPrepared cache p when =
      ⟨cache, some (.preparedName ("duplicate name: " ++ p.name)), []⟩ := by
  simp only [addPrepared, preparedsAdd, h]
  rw [if_neg (by simpa using ht)]

theorem addPrepared_amend {cache : Cache} {p : Prepared} {when : Nat}
    {e : CacheEntry} (h : alookup cache p.name = some e)
    (ht : e.prepared.text = p.text) :
    addPrepared cache p when =
      ⟨aset cache p.name { e with prepared := p, populated := false }, none,
        [(p.name, p.encodedPlan)]⟩ := by
  simp only [addPrepared, preparedsAdd, h]
  rw [if_pos (by simp [ht])]
  simp

/-- C2: `AddPrepared(p)` fails with `PreparedNameError("duplicate name:
<p.Name>")` iff the cache already holds an entry under `p.Name` with a
different statement text; otherwise it succeeds, and an entry with
matching text has its plan replaced and its populated flag reset. -/
theorem C2_addPrepared (cache : Cache) (p : Prepared) (when : Nat) :
    ((addPrepared cache p when).err
        = some (.preparedName ("duplicate name: " ++ p.name)) ↔
      ∃ e, alookup cache p.name = some e ∧ e.prepared.text ≠ p.text) ∧
    (∀ e, alookup cache p.name = some e → e.prepared.text = p.text →
      (addPrepared cache p when).err = none ∧
      alookup (addPrepared cache p when).cache p.name
        = some { e with prepared := p, populated := false }) ∧
    (alookup cache p.name = none →
      (addPrepared cache p when).err = none ∧
      alookup (addPrepared cache p when).cache p.name
        = some (mkCacheEntry p false false when)) := by
  refine ⟨?_, ?_, ?_⟩
  · constructor
    · intro h
      cases hl : alookup cache p.name with
      | none =>
        rw [addPrepared_absent hl] at h
        simp at h
      | some e =>
        refine ⟨e, rfl, ?_⟩
        intro htext
        rw [addPrepared_amend hl htext] at h
        simp at h
    · rintro ⟨e, he, htext⟩
      rw [addPrepared_dup he htext]
  · intro e he htext
    rw [addPrepared_amend he htext]
    exact ⟨rfl, by rw [alookup_aset_self]⟩
  · intro hnone
    rw [addPrepared_absent hnone]
    exact ⟨rfl, by rw [alookup]; simp⟩

/-- Witness for C2, exercising the duplicate-name refusal and the
matching-text replacement on a concrete cache. -/
theorem C2_addPrepared_witness :
    ((addPrepared [("p1", mkCacheEntry ⟨"p1", "SELECT 2", none, none⟩
          false false 0)] ⟨"p1", "SELECT 1", none, none⟩ 0).err
        = some (.preparedName ("duplicate name: " ++ "p1")) ↔
      ∃ e, alookup [("p1", mkCacheEntry ⟨"p1", "SELECT 2", none, none⟩
          false false 0)] "p1" = some e ∧ e.prepared.text ≠ "SELECT 1") ∧
    ((addPrepared ([] : Cache) ⟨"p1", "SELECT 1", none, none⟩ 0).err = none ∧
      alookup (addPrepared ([] : Cache) ⟨"p1", "SELECT 1", none, none⟩ 0).cache
          "p1"
        = some (mkCacheEntry ⟨"p1", "SELECT 1", none, none⟩ false false 0)) :=
  ⟨(C2_addPrepared [("p1", mkCacheEntry ⟨"p1", "SELECT 2", none, none⟩
      false false 0)] ⟨"p1", "SELECT 1", none, none⟩ 0).1,
   (C2_addPrepared ([] : Cache) ⟨"p1", "SELECT 1", none, none⟩ 0).2.2 rfl⟩

/-- C3: after a successful `AddPrepared(p)` (plain non-empty name),
`GetPrepared(p.Name, {})` returns the cached plan `p`; after
`DeletePrepared(p.Name)` it fails with `NoSuchPrepared`; and
`DeletePrepared` of an absent name itself returns the no-such-prepared
error. -/
theorem C3_cacheLifecycle (env : Env) (cache : Cache) (p : Prepared)
    (now when : Nat)
    (hsplit : splitKey p.name = ("", p.name))
    (hname : p.name ≠ "")
    (hadd : (addPrepared cache p when).err = none) :
    (getPrepared env (addPrepared cache p when).cache (.stringV p.name) 0 now
        = ((addPrepared cache p when).cache, .ok p)) ∧
    (deletePrepared (addPrepared cache p when).cache p.name
        = (aerase (addPrepared cache p when).cache p.name, none) ∧
      getPrepared env (aerase (addPrepared cache p when).cache p.name)
          (.stringV p.name) 0 now
        = (aerase (addPrepared cache p when).cache p.name,
            .error (.noSuchPrepared p.name))) ∧
    (∀ (c : Cache) (n : String), alookup c n = none →
      deletePrepared c n = (c, some (.noSuchPrepared n))) := by
  have hlook : ∃ e, alookup (addPrepared cache p when).cache p.name = some e ∧
      e.prepared = p := by
    cases hl : alookup cache p.name with
    | none =>
      refine ⟨mkCacheEntry p false false when, ?_, rfl⟩
      rw [addPrepared_absent hl]
      simp [alookup]
    | some e =>
      by_cases htext : e.prepared.text = p.text
      · refine ⟨{ e with prepared := p, populated := false }, ?_, rfl⟩
        rw [addPrepared_amend hl htext]
        simp [alookup_aset_self]
      · exfalso
        rw [addPrepared_dup hl htext] at hadd
        simp at hadd

  obtain ⟨e, he, hep⟩ := hlook
  refine ⟨?_, ⟨?_, ?_⟩, ?_⟩
  · rw [getPrepared]
    simp only [hsplit]
    rw [pcGet, if_neg hname, he]
    simp only [Bool.false_and, decide_eq_true_eq]
    norm_num [OPT_TRACK, OPT_REMOTE, OPT_VERIFY, OPT_METACHECK, hep]
  · rw [deletePrepared, he]
  · rw [getPrepared]
    simp only [hsplit]
    rw [pcGet, if_neg hname, alookup_aerase, if_pos rfl]
    norm_num [OPT_TRACK, OPT_REMOTE, OPT_VERIFY, OPT_METACHECK]
  · intro c n hnone
    rw [deletePrepared, hnone]

/-- Witness for C3 on a concrete cache and plan. -/
theorem C3_cacheLifecycle_witness :
    (getPrepared ⟨fun _ => true, fun _ => true, fun q => .ok q,
          fun _ _ => none, ""⟩
        (addPrepared ([] : Cache) ⟨"p1", "SELECT 1", none, none⟩ 0).cache
        (.stringV "p1") 0 0
      = ((addPrepared ([] : Cache) ⟨"p1", "SELECT 1", none, none⟩ 0).cache,
         .ok ⟨"p1", "SELECT 1", none, none⟩)) ∧
    (deletePrepared
        (addPrepared ([] : Cache) ⟨"p1", "SELECT 1", none, none⟩ 0).cache "p1"
      = (aerase (addPrepared ([] : Cache)
          ⟨"p1", "SELECT 1", none, none⟩ 0).cache "p1", none) ∧
     getPrepared ⟨fun _ => true, fun _ => true, fun q => .ok q,
          fun _ _ => none, ""⟩
        (aerase (addPrepared ([] : Cache)
          ⟨"p1", "SELECT 1", none, none⟩ 0).cache "p1")
        (.stringV "p1") 0 0
      = (aerase (addPrepared ([] : Cache)
          ⟨"p1", "SELECT 1", none, none⟩ 0).cache "p1",
         .error (.noSuchPrepared "p1"))) ∧
    (∀ (c : Cache) (n : String), alookup c n = none →
      deletePrepared c n = (c, some (.noSuchPrepared n))) :=
  C3_cacheLifecycle ⟨fun _ => true, fun _ => true, fun q => .ok q,
      fun _ _ => none, ""⟩
    ([] : Cache) ⟨"p1", "SELECT 1", none, none⟩ 0 0 (by rfl) (by decide) rfl

theorem updateMetricsEntry_mono (ce : CacheEntry) (rt st : Nat) :
    (updateMetricsEntry ce rt st).minServiceTime ≤ ce.minServiceTime ∧
    (updateMetricsEntry ce rt st).minRequestTime ≤ ce.minRequestTime ∧
    ce.maxServiceTime ≤ (updateMetricsEntry ce rt st).maxServiceTime ∧
    ce.maxRequestTime ≤ (updateMetricsEntry ce rt st).maxRequestTime := by
  refine ⟨?_, ?_, ?_, ?_⟩ <;>
    simp [updateMetricsEntry, testAndSetUint64] <;>
    split <;> omega

theorem updateMetrics_foldl_mono (samples : List (Nat × Nat)) :
    ∀ ce : CacheEntry,
    (samples.foldl (fun acc s => updateMetricsEntry acc s.1 s.2)
        ce).minServiceTime ≤ ce.minServiceTime ∧
    (samples.foldl (fun acc s => updateMetricsEntry acc s.1 s.2)
        ce).minRequestTime ≤ ce.minRequestTime ∧
    ce.maxServiceTime ≤ (samples.foldl
        (fun acc s => updateMetricsEntry acc s.1 s.2) ce).maxServiceTime ∧
    ce.maxRequestTime ≤ (samples.foldl
        (fun acc s => updateMetricsEntry acc s.1 s.2) ce).maxRequestTime := by
  induction samples with
  | nil => intro ce; exact ⟨le_refl _, le_refl _, le_refl _, le_refl _⟩
  | cons s rest ih =>
    intro ce
    obtain ⟨h1, h2, h3, h4⟩ := ih (updateMetricsEntry ce s.1 s.2)
    obtain ⟨g1, g2, g3, g4⟩ := updateMetricsEntry_mono ce s.1 s.2
    exact ⟨le_trans h1 g1, le_trans h2 g2, le_trans g3 h3, le_trans g4 h4⟩

/-- C8: the timing minima never increase and the maxima never decrease
across any sequence of `RecordPreparedMetrics` updates; a fresh cache
entry starts its minima at the `MaxUint64` sentinel and its maxima at 0,
so the first recorded sample installs both its min and its max; and the
cache-level operation applies exactly this per-entry update. -/
theorem C8_recordPreparedMetrics :
    (∀ (p : Prepared) (populated track : Bool) (when : Nat),
        (mkCacheEntry p populated track when).minServiceTime = 2 ^ 64 - 1 ∧
        (mkCacheEntry p populated track when).minRequestTime = 2 ^ 64 - 1 ∧
        (mkCacheEntry p populated track when).maxServiceTime = 0 ∧
        (mkCacheEntry p populated track when).maxRequestTime = 0) ∧
    (∀ (ce : CacheEntry) (rt st : Nat),
        (updateMetricsEntry ce rt st).minServiceTime ≤ ce.minServiceTime ∧
        (updateMetricsEntry ce rt st).minRequestTime ≤ ce.minRequestTime ∧
        ce.maxServiceTime ≤ (updateMetricsEntry ce rt st).maxServiceTime ∧
        ce.maxRequestTime ≤ (updateMetricsEntry ce rt st).maxRequestTime) ∧
    (∀ (ce : CacheEntry) (samples : List (Nat × Nat)),
        (samples.foldl (fun acc s => updateMetricsEntry acc s.1 s.2)
            ce).minServiceTime ≤ ce.minServiceTime ∧
        (samples.foldl (fun acc s => updateMetricsEntry acc s.1 s.2)
            ce).minRequestTime ≤ ce.minRequestTime ∧
        ce.maxServiceTime ≤ (samples.foldl
            (fun acc s => updateMetricsEntry acc s.1 s.2) ce).maxServiceTime ∧
        ce.maxRequestTime ≤ (samples.foldl
            (fun acc s => updateMetricsEntry acc s.1 s.2) ce).maxRequestTime) ∧
    (∀ (p : Prepared) (populated track : Bool) (when rt st : Nat),
        st < 2 ^ 64 → rt < 2 ^ 64 →
        (updateMetricsEntry (mkCacheEntry p populated track when) rt
            st).minServiceTime = st ∧
        (updateMetricsEntry (mkCacheEntry p populated track when) rt
            st).maxServiceTime = st ∧
        (updateMetricsEntry (mkCacheEntry p populated track when) rt
            st).minRequestTime = rt ∧
        (updateMetricsEntry (mkCacheEntry p populated track when) rt
            st).maxRequestTime = rt) ∧
    (∀ (cache : Cache) (p : Prepared) (rt st : Nat) (ce : CacheEntry),
        p.name ≠ "" → alookup cache p.name = some ce →
        alookup (recordPreparedMetrics cache (some p) rt st) p.name
          = some (updateMetricsEntry ce rt st)) := by
  refine ⟨?_, updateMetricsEntry_mono, ?_, ?_, ?_⟩
  · intro p populated track when
    exact ⟨rfl, rfl, rfl, rfl⟩
  · intro ce samples
    exact updateMetrics_foldl_mono samples ce
  · intro p populated track when rt st hst hrt
    refine ⟨?_, ?_, ?_, ?_⟩ <;>
      simp [updateMetricsEntry, mkCacheEntry, testAndSetUint64] <;>
      omega
  · intro cache p rt st ce hname hlo
    rw [recordPreparedMetrics, if_neg hname, hlo, alookup_aset_self]

/-- Witness for C8 on a concrete entry and sample sequence. -/
theorem C8_recordPreparedMetrics_witness :
    ((mkCacheEntry ⟨"p1", "SELECT 1", none, none⟩ false false 0).minServiceTime
        = 2 ^ 64 - 1 ∧
      (mkCacheEntry ⟨"p1", "SELECT 1", none, none⟩ false false 0).minRequestTime
        = 2 ^ 64 - 1 ∧
      (mkCacheEntry ⟨"p1", "SELECT 1", none, none⟩ false false 0).maxServiceTime
        = 0 ∧
      (mkCacheEntry ⟨"p1", "SELECT 1", none, none⟩ false false 0).maxRequestTime
        = 0) ∧
    ((updateMetricsEntry (mkCacheEntry ⟨"p1", "SELECT 1", none, none⟩
          false false 0) 7 5).minServiceTime = 5 ∧
      (updateMetricsEntry (mkCacheEntry ⟨"p1", "SELECT 1", none, none⟩
          false false 0) 7 5).maxServiceTime = 5 ∧
      (updateMetricsEntry (mkCacheEntry ⟨"p1", "SELECT 1", none, none⟩
          false false 0) 7 5).minRequestTime = 7 ∧
      (updateMetricsEntry (mkCacheEntry ⟨"p1", "SELECT 1", none, none⟩
          false false 0) 7 5).maxRequestTime = 7) :=
  ⟨(C8_recordPreparedMetrics.1 ⟨"p1", "SELECT 1", none, none⟩ false false 0),
   (C8_recordPreparedMetrics.2.2.2.1 ⟨"p1", "SELECT 1", none, none⟩
      false false 0 7 5 (by norm_num) (by norm_num))⟩

/-- C10: when the decoded prepared carries an empty name, `DecodePrepared`
returns it immediately after the name-mismatch check — it does not call
`Verify`, inserts nothing into the cache, and distributes nothing, for
every value of the track and distribute flags. -/
theorem C10_decode_anonymous (env : Env) (cache : Cache) (name : String)
    (stmt : EncStr) (track distribute : Bool) (when : Nat) (j : JVal)
    (p0 : Prepared) (hdec : decodeLayers stmt = some j)
    (hum : unmarshalPreparedM env j = .ok p0) (hname : p0.name = "") :
    decodePrepared env cache name stmt track distribute when
      = ⟨cache, .ok { p0 with encodedPlan := some stmt }, [], false⟩ := by
  have hpname : ({ p0 with encodedPlan := some stmt } : Prepared).name = "" :=
    hname
  simp only [decodePrepared, hdec, hum]
  rw [if_neg (by simp [hname]), if_pos hpname]

/-- Witness for C10 on a concrete anonymous encoded plan. -/
theorem C10_decode_anonymous_witness :
    decodePrepared
        ⟨fun _ => true, fun _ => true, fun q => .ok q, fun _ _ => none, ""⟩
        [] "x" (.wellFormed (.jobj [("text", JVal.jstr "SELECT 1")])) true true 0
      = ⟨[], .ok ⟨"", "SELECT 1",
            some (.wellFormed (.jobj [("text", JVal.jstr "SELECT 1")])), none⟩,
          [], false⟩ :=
  C10_decode_anonymous
    ⟨fun _ => true, fun _ => true, fun q => .ok q, fun _ _ => none, ""⟩
    [] "x" (.wellFormed (.jobj [("text", JVal.jstr "SELECT 1")])) true true 0
    (.jobj [("text", JVal.jstr "SELECT 1")]) ⟨"", "SELECT 1", none, none⟩
    rfl rfl rfl

end QuerySpec
